import Mathlib

/-!
Shallow embedding of the `tdtxt` todo.txt line parser (the current module
variant: `parse.rs`, `state.rs`, `priority.rs`, `date.rs`, `description.rs`,
`task.rs`).  Byte buffers are modelled as `List Nat` (one `Nat` per byte);
the cursor is an index into the buffer, clamped exactly as in the source.
All loops of the source are compiled to fuel-based structural recursion with
a fuel that provably dominates the loop's own strictly-decreasing measure,
so every definition evaluates by kernel reduction.
-/

namespace Tdtxt

/-- Rust `u8::is_ascii_whitespace`: space, tab, line feed, form feed,
carriage return (not vertical tab). -/
def isWs (b : Nat) : Bool :=
  b = 32 || b = 9 || b = 10 || b = 12 || b = 13

/-- `description.rs::read_custom::is_key_value_byte`: not ASCII whitespace and
not a colon. -/
def isKeyValueByte (b : Nat) : Bool :=
  !isWs b && b ≠ 58

/-- `parse.rs::Cursor`: a byte slice plus a forward-only offset.  The source's
`Parser` is a transparent wrapper around `Cursor`; we flatten the wrapper and
keep both vocabularies (`Parser` is an abbreviation below). -/
structure Cursor where
  bytes : List Nat
  index : Nat
deriving DecidableEq

/-- `Cursor::new`. -/
def Cursor.new (bs : List Nat) : Cursor := ⟨bs, 0⟩

/-- `Cursor::in_bounds`: `bytes.len() > index`. -/
def Cursor.inBounds (c : Cursor) (i : Nat) : Bool :=
  decide (i < c.bytes.length)

/-- `Cursor::is_eof`. -/
def Cursor.isEof (c : Cursor) : Bool :=
  decide (c.bytes.length ≤ c.index)

/-- `Cursor::get`: `Some(bytes[i])` when in bounds (this is `List.get?`). -/
def Cursor.get (c : Cursor) (i : Nat) : Option Nat :=
  c.bytes.get? i

/-- `Cursor::nth`. -/
def Cursor.nth (c : Cursor) (n : Nat) : Option Nat :=
  c.get (c.index + n)

/-- `Cursor::first`. -/
def Cursor.first (c : Cursor) : Option Nat := c.nth 0

/-- `Cursor::second`. -/
def Cursor.second (c : Cursor) : Option Nat := c.nth 1

/-- `Cursor::advance_to`: the offset is clamped to the buffer length. -/
def Cursor.advanceTo (c : Cursor) (i : Nat) : Cursor :=
  { c with index := min c.bytes.length i }

/-- `Cursor::advance`. -/
def Cursor.advance (c : Cursor) (n : Nat) : Cursor :=
  c.advanceTo (c.index + n)

/-- `Cursor::consume`: one byte, or `None` at end. -/
def Cursor.consume (c : Cursor) : Option Nat × Cursor :=
  match c.first with
  | none => (none, c)
  | some b => (some b, c.advance 1)

/-- Fuel-based body of `Cursor::consume_while`; the wrapper passes fuel
`bytes.len - index`, which bounds the number of iterations because every
iteration advances the offset by one while it is still in bounds. -/
def Cursor.consumeWhileAux (p : Nat → Bool) : Nat → Cursor → Cursor
  | 0, c => c
  | fuel + 1, c =>
    match c.first with
    | none => c
    | some b => if p b then Cursor.consumeWhileAux p fuel (c.advance 1) else c

/-- `Cursor::consume_while`: greedily consume while the predicate holds. -/
def Cursor.consumeWhile (c : Cursor) (p : Nat → Bool) : Cursor :=
  Cursor.consumeWhileAux p (c.bytes.length - c.index) c

/-- `Cursor::consume_whitespaces`. -/
def Cursor.consumeWhitespaces (c : Cursor) : Cursor :=
  c.consumeWhile isWs

/-- `Cursor::consume_non_whitespaces`. -/
def Cursor.consumeNonWhitespaces (c : Cursor) : Cursor :=
  c.consumeWhile (fun b => !isWs b)

/-- The unread suffix of the buffer (proof-side helper, not from the source). -/
def Cursor.remain (c : Cursor) : List Nat :=
  c.bytes.drop c.index

/-- `parse.rs::Parser` is a transparent wrapper around `Cursor`. -/
abbrev Parser := Cursor

/-- `Parser::new`. -/
def Parser.new (bs : List Nat) : Parser := Cursor.new bs

/-- `Parser::parse_u8`. -/
def Parser.parseU8 (p : Parser) : Option Nat × Parser := p.consume

/-- `Parser::parse_alpha_upper` (returns the byte of the letter). -/
def Parser.parseAlphaUpper (p : Parser) : Option Nat × Parser :=
  match p.first with
  | some b => if 65 ≤ b ∧ b ≤ 90 then (some b, p.advance 1) else (none, p)
  | none => (none, p)

/-- `Parser::parse_digit` (returns the digit value `b - b'0'`). -/
def Parser.parseDigit (p : Parser) : Option Nat × Parser :=
  match p.first with
  | some b => if 48 ≤ b ∧ b ≤ 57 then (some (b - 48), p.advance 1) else (none, p)
  | none => (none, p)

/-- `Parser::parse_until`: everything up to (excluding) the terminator; fails
only at end of input. -/
def Parser.parseUntil (p : Parser) (terminator : Nat) : Option (List Nat) × Parser :=
  if p.isEof then (none, p)
  else
    let start := p.index
    let p' := p.consumeWhile (fun b => b ≠ terminator)
    (some ((p'.bytes.take p'.index).drop start), p')

/-- `Parser::expect_u8`. -/
def Parser.expectU8 (p : Parser) (expect : Nat) : Option Nat × Parser :=
  match p.first with
  | some b => if b = expect then (some expect, p.advance 1) else (none, p)
  | none => (none, p)

/-- `Parser::expect_whitespace`. -/
def Parser.expectWhitespace (p : Parser) : Option Unit × Parser :=
  match p.first with
  | some b => if isWs b then (some (), p.advance 1) else (none, p)
  | none => (none, p)

/-- `Parser::expect_slice`: compares `bytes[index..=index_end]` against the
expected slice and advances past it on equality. -/
def Parser.expectSlice (p : Parser) (expect : List Nat) : Option (List Nat) × Parser :=
  let len := expect.length
  let indexEnd := p.index + (if 0 < len then len - 1 else 0)
  if p.inBounds indexEnd then
    let slice := (p.bytes.take (indexEnd + 1)).drop p.index
    if slice = expect then (some slice, p.advance len) else (none, p)
  else (none, p)

/-- `Parser::peek`. -/
def Parser.peek (p : Parser) : Option Nat := p.first

/-- `Parse::parse_opt` (default trait method, `parse.rs` lines 8-18):
snapshot the parser, run `parse`, restore the snapshot on failure.  All
implementations in the crate use this default body, so we model it once,
generically over the underlying `parse` function. -/
def parseOpt {α : Type} (f : Parser → Option α × Parser) (p : Parser) :
    Option α × Parser :=
  match f p with
  | (none, _) => (none, p)
  | (some x, p') => (some x, p')

/-! ## State (`state.rs`) -/

/-- `State`: `Open` (no textual representation) or `Done` (`x`). -/
inductive State where
  | Open
  | Done
deriving DecidableEq

/-- `State::default` is `Open`. -/
def State.default : State := State.Open

/-- `impl Parse for State`: a single literal `x`. -/
def stateParse (p : Parser) : Option State × Parser :=
  match p.expectU8 120 with
  | (some _, p') => (some State.Done, p')
  | (none, p') => (none, p')

/-- `impl fmt::Display for State`. -/
def stateDisplay : State → List Nat
  | State.Done => [120]
  | State.Open => []

/-! ## Priority (`priority.rs`) -/

/-- `Priority`: the 26 letters `A..=Z` with discriminants `0..=25`. -/
def Priority : Type := Fin 26

instance : DecidableEq Priority := instDecidableEqFin 26

/-- `impl TryFrom<char> for Priority`: the 26-arm match maps exactly the
uppercase ASCII letters to the matching discriminant. -/
def Priority.tryFrom (b : Nat) : Option Priority :=
  if h : 65 ≤ b ∧ b ≤ 90 then some ⟨b - 65, by omega⟩ else none

/-- `impl Ord for Priority`: compare the discriminants, then swap `Less` and
`Greater` (so `A` is the greatest value). -/
def Priority.cmp (x y : Priority) : Ordering :=
  match Ord.compare x.val y.val with
  | Ordering.lt => Ordering.gt
  | Ordering.gt => Ordering.lt
  | Ordering.eq => Ordering.eq

/-- `impl Parse for Priority`: `(`, one uppercase letter, then the two-byte
slice `") "` (closing paren AND a space). -/
def priorityParse (p : Parser) : Option Priority × Parser :=
  match p.expectU8 40 with
  | (none, p') => (none, p')
  | (some _, p1) =>
    match p1.parseAlphaUpper with
    | (none, _) => (none, p1)
    | (some b, p2) =>
      match Priority.tryFrom b with
      | none => (none, p2)
      | some pr =>
        match p2.expectSlice [41, 32] with
        | (none, p') => (none, p')
        | (some _, p3) => (some pr, p3)

/-- `impl fmt::Display for Priority`: the 26-arm match writes `(X)`. -/
def priorityDisplay (pr : Priority) : List Nat :=
  [40, 65 + pr.val, 41]

/-! ## Date (`date.rs`, feature `chrono` off: the `SimpleDate` backend) -/

/-- `SimpleDate` (and the `Date` wrapper around it): year `i16`, one-indexed
month and day `u8`. -/
structure Date where
  year : Int
  month : Nat
  day : Nat
deriving DecidableEq

/-- `SimpleDate::from_ymd_opt`: only the static bounds `1..=12` / `1..=31`
are validated. -/
def Date.fromYmdOpt (year : Int) (month day : Nat) : Option Date :=
  if 1 ≤ month ∧ month ≤ 12 ∧ 1 ≤ day ∧ day ≤ 31 then
    some ⟨year, month, day⟩
  else none

/-- `impl Parse for Date`: fixed-width `dddd-dd-dd`, then `from_ymd_opt`. -/
def dateParse (p : Parser) : Option Date × Parser :=
  match p.parseDigit with
  | (none, p') => (none, p')
  | (some y1, p1) =>
  match p1.parseDigit with
  | (none, p') => (none, p')
  | (some y2, p2) =>
  match p2.parseDigit with
  | (none, p') => (none, p')
  | (some y3, p3) =>
  match p3.parseDigit with
  | (none, p') => (none, p')
  | (some y4, p4) =>
  match p4.expectU8 45 with
  | (none, p') => (none, p')
  | (some _, p5) =>
  match p5.parseDigit with
  | (none, p') => (none, p')
  | (some m1, p6) =>
  match p6.parseDigit with
  | (none, p') => (none, p')
  | (some m2, p7) =>
  match p7.expectU8 45 with
  | (none, p') => (none, p')
  | (some _, p8) =>
  match p8.parseDigit with
  | (none, p') => (none, p')
  | (some d1, p9) =>
  match p9.parseDigit with
  | (none, p') => (none, p')
  | (some d2, p10) =>
    let year : Int := (y1 : Int) * 1000 + (y2 : Int) * 100 + (y3 : Int) * 10 + (y4 : Int)
    let month := m1 * 10 + m2
    let day := d1 * 10 + d2
    match Date.fromYmdOpt year month day with
    | none => (none, p10)
    | some d => (some d, p10)

/-- Decimal digits of a natural number, most significant first (fuel-based so
that it evaluates by kernel reduction; fuel `n + 1` always suffices). -/
def natDigitsAux : Nat → Nat → List Nat
  | 0, _ => []
  | fuel + 1, n =>
    if n < 10 then [48 + n]
    else natDigitsAux fuel (n / 10) ++ [48 + n % 10]

/-- The decimal digit bytes of `n`. -/
def natDigits (n : Nat) : List Nat := natDigitsAux (n + 1) n

/-- Zero-pad digit bytes on the left to width `w` (Rust's `{:0w}` for a
non-negative number). -/
def padDigits (w n : Nat) : List Nat :=
  List.replicate (w - (natDigits n).length) 48 ++ natDigits n

/-- Rust `{:04}` applied to the `i16` year: the minimum width counts the sign,
so a negative year is a `-` followed by the absolute value padded to width 3. -/
def yearDigits (y : Int) : List Nat :=
  if y < 0 then 45 :: padDigits 3 (-y).toNat else padDigits 4 y.toNat

/-- `impl fmt::Display for SimpleDate`: `{:04}-{:02}-{:02}`. -/
def dateDisplay (d : Date) : List Nat :=
  yearDigits d.year ++ [45] ++ padDigits 2 d.month ++ [45] ++ padDigits 2 d.day

/-- `DateCompound` (`date.rs`): one creation date, or completion plus
creation. -/
inductive DateCompound where
  | completed (created completed : Date)
  | created (created : Date)
deriving DecidableEq

/-- `impl Parse for DateCompound` (`date.rs` lines 394-423): one date; then a
single whitespace byte and a second date, committed only if followed by end of
input or whitespace; the two dates are un-reversed into
`Completed { created: second, completed: first }`. -/
def dateCompoundParse (p : Parser) : Option DateCompound × Parser :=
  match parseOpt dateParse p with
  | (none, _) => (none, p)
  | (some date1, p1) =>
    match p1.expectWhitespace with
    | (none, _) => (some (DateCompound.created date1), p1)
    | (some _, pc) =>
      match parseOpt dateParse pc with
      | (none, _) => (some (DateCompound.created date1), p1)
      | (some date2, pc') =>
        if (pc'.peek.map isWs).getD true then
          (some (DateCompound.completed date2 date1), pc')
        else
          (some (DateCompound.created date1), p1)

/-- `impl fmt::Display for DateCompound`: `created`, or `completed created`. -/
def dateCompoundDisplay : DateCompound → List Nat
  | DateCompound.created c => dateDisplay c
  | DateCompound.completed c cp => dateDisplay cp ++ [32] ++ dateDisplay c

/-! ## Spans (`span.rs`) -/

/-- `ByteSpan`: a half-open byte range (`BytePos` is just the offset). -/
structure ByteSpan where
  low : Nat
  high : Nat
deriving DecidableEq

/-- `ByteSpan::new` normalizes by swapping when given out of order. -/
def ByteSpan.new (low high : Nat) : ByteSpan :=
  if high < low then ⟨high, low⟩ else ⟨low, high⟩

/-- `ByteSpan::offset_low` (`BytePos::offset` casts through `i32`; the crate
only ever calls this with `1`, or with `-1` on a positive offset, so the
`Int.toNat` clamp is never exercised below zero). -/
def ByteSpan.offsetLow (s : ByteSpan) (off : Int) : ByteSpan :=
  ⟨((s.low : Int) + off).toNat, s.high⟩

/-- `ByteSpan::union`: smallest span containing both. -/
def ByteSpan.union (s t : ByteSpan) : ByteSpan :=
  ⟨min s.low t.low, max s.high t.high⟩

/-- `ByteSpan::len`. -/
def ByteSpan.len (s : ByteSpan) : Nat := s.high - s.low

/-- Resolve a span against a buffer (`Index<ByteSpan> for str`). -/
def ByteSpan.slice (s : ByteSpan) (bs : List Nat) : List Nat :=
  (bs.take s.high).drop s.low

/-! ## Description (`description.rs`) -/

/-- `ProjectRange`: full word span and the name span without the leading `+`. -/
structure ProjectRange where
  full : ByteSpan
  name : ByteSpan
deriving DecidableEq

/-- `ProjectRange::new`. -/
def ProjectRange.new (full : ByteSpan) : ProjectRange :=
  ⟨full, full.offsetLow 1⟩

/-- `ContextRange`: full word span and the name span without the leading `@`. -/
structure ContextRange where
  full : ByteSpan
  name : ByteSpan
deriving DecidableEq

/-- `ContextRange::new`. -/
def ContextRange.new (full : ByteSpan) : ContextRange :=
  ⟨full, full.offsetLow 1⟩

/-- `CustomRange`: full span plus key, separator and value spans. -/
structure CustomRange where
  full : ByteSpan
  key : ByteSpan
  separator : ByteSpan
  value : ByteSpan
deriving DecidableEq

/-- `CustomRange::new`: the full span is the union of key and value. -/
def CustomRange.new (key separator value : ByteSpan) : CustomRange :=
  ⟨key.union value, key, separator, value⟩

/-- `Description::read_project`: consume the word, record its span. -/
def readProject (c : Cursor) (wordStart : Nat) : ProjectRange × Cursor :=
  let c' := c.consumeNonWhitespaces
  (ProjectRange.new (ByteSpan.new wordStart c'.index), c')

/-- `Description::read_context`. -/
def readContext (c : Cursor) (wordStart : Nat) : ContextRange × Cursor :=
  let c' := c.consumeNonWhitespaces
  (ContextRange.new (ByteSpan.new wordStart c'.index), c')

/-- `Description::read_custom` (`description.rs` lines 258-298): key run, a
colon, then a value run that must be non-empty and reach a whitespace-or-eof
boundary. -/
def readCustom (c : Cursor) (wordStart : Nat) : Option CustomRange × Cursor :=
  let c1 := c.consumeWhile isKeyValueByte
  match c1.first with
  | some 58 =>
    let keySpan := ByteSpan.new wordStart c1.index
    let c2 := c1.advance 1
    let separatorSpan := (ByteSpan.new c2.index c2.index).offsetLow (-1)
    if 0 < keySpan.len ∧ (c2.first.map isKeyValueByte).getD false then
      let valueStart := c2.index
      let c3 := c2.consumeWhile isKeyValueByte
      let valueSpan := ByteSpan.new valueStart c3.index
      if ¬(valueSpan.len = 0 ∨ (c3.first.map (fun b => !isWs b)).getD false) then
        (some (CustomRange.new keySpan separatorSpan valueSpan), c3)
      else (none, c3)
    else (none, c2)
  | _ => (none, c1)

/-- One backward-compatible spelling of the three range lists. -/
abbrev RangeLists := List ProjectRange × List ContextRange × List CustomRange

/-- Fuel-based body of the `Description::index` scanning loop
(`description.rs` lines 185-238).  Every iteration that does not stop strictly
advances the cursor, so fuel `bytes.len + 1 - index` always suffices.  The
Rust `match` arms with their guards are compiled to the equivalent decision
tree below. -/
def indexLoopAux : Nat → Cursor → RangeLists
  | 0, _ => ([], [], [])
  | fuel + 1, c =>
    if c.isEof then ([], [], [])
    else
      let c1 := c.consumeWhitespaces
      let wordStart := c1.index
      match c1.first with
      | none => ([], [], [])
      | some a =>
        match c1.second with
        | some b =>
          if isWs b then
            let (ps, cs, us) := indexLoopAux fuel c1.consumeNonWhitespaces
            (ps, cs, us)
          else if a = 43 then
            let (r, c2) := readProject c1 wordStart
            let (ps, cs, us) := indexLoopAux fuel c2
            (r :: ps, cs, us)
          else if a = 64 then
            let (r, c2) := readContext c1 wordStart
            let (ps, cs, us) := indexLoopAux fuel c2
            (ps, r :: cs, us)
          else
            match readCustom c1 wordStart with
            | (some r, c2) =>
              let (ps, cs, us) := indexLoopAux fuel c2
              (ps, cs, r :: us)
            | (none, c2) =>
              let (ps, cs, us) := indexLoopAux fuel c2.consumeNonWhitespaces
              (ps, cs, us)
        | none =>
          let (ps, cs, us) := indexLoopAux fuel c1.consumeNonWhitespaces
          (ps, cs, us)

/-- `Description::index`: locate all projects, contexts and custom tags. -/
def descriptionIndex (s : List Nat) : RangeLists :=
  indexLoopAux (s.length + 1) (Cursor.new s)

/-- `Description`: the raw text plus the three range lists. -/
structure Description where
  raw : List Nat
  projects : List ProjectRange
  contexts : List ContextRange
  custom : List CustomRange
deriving DecidableEq

/-- `Description::new`. -/
def Description.new (s : List Nat) : Description :=
  let (ps, cs, us) := descriptionIndex s
  ⟨s, ps, cs, us⟩

/-- `impl fmt::Display for Description`: the raw text verbatim. -/
def descriptionDisplay (d : Description) : List Nat := d.raw

/-- Is `b` a UTF-8 continuation byte (`0x80..=0xBF`)? -/
def isCont (b : Nat) : Bool := 128 ≤ b && b ≤ 191

/-- Fuel-based body of UTF-8 validation (one unit of fuel per character;
fuel `s.length` always suffices since every character consumes at least one
byte). -/
def utf8ValidAux : Nat → List Nat → Bool
  | _, [] => true
  | 0, _ :: _ => false
  | fuel + 1, b :: rest =>
    if b ≤ 127 then utf8ValidAux fuel rest
    else if 194 ≤ b && b ≤ 223 then
      match rest with
      | c1 :: r => isCont c1 && utf8ValidAux fuel r
      | [] => false
    else if b = 224 then
      match rest with
      | c1 :: c2 :: r => (160 ≤ c1 && c1 ≤ 191) && isCont c2 && utf8ValidAux fuel r
      | _ => false
    else if (225 ≤ b && b ≤ 236) || b = 238 || b = 239 then
      match rest with
      | c1 :: c2 :: r => isCont c1 && isCont c2 && utf8ValidAux fuel r
      | _ => false
    else if b = 237 then
      match rest with
      | c1 :: c2 :: r => (128 ≤ c1 && c1 ≤ 159) && isCont c2 && utf8ValidAux fuel r
      | _ => false
    else if b = 240 then
      match rest with
      | c1 :: c2 :: c3 :: r =>
        (144 ≤ c1 && c1 ≤ 191) && isCont c2 && isCont c3 && utf8ValidAux fuel r
      | _ => false
    else if 241 ≤ b && b ≤ 243 then
      match rest with
      | c1 :: c2 :: c3 :: r =>
        isCont c1 && isCont c2 && isCont c3 && utf8ValidAux fuel r
      | _ => false
    else if b = 244 then
      match rest with
      | c1 :: c2 :: c3 :: r =>
        (128 ≤ c1 && c1 ≤ 143) && isCont c2 && isCont c3 && utf8ValidAux fuel r
      | _ => false
    else false

/-- `std::str::from_utf8` succeeds: standard UTF-8 validity (rejecting
overlong forms, surrogates and values above `U+10FFFF`). -/
def utf8Valid (s : List Nat) : Bool := utf8ValidAux s.length s

/-- `impl Parse for Description` (`description.rs` lines 326-342): everything
up to a line feed (error only at end of input), UTF-8 validation, then one
byte (the possible newline) is consumed. -/
def descriptionParse (p : Parser) : Option Description × Parser :=
  match p.parseUntil 10 with
  | (none, p') => (none, p')
  | (some bs, p') =>
    if utf8Valid bs then
      let (_, p2) := p'.parseU8
      (some (Description.new bs), p2)
    else (none, p')

/-! ## Components (`description.rs` lines 382-535) -/

/-- `Component`: one segment of a description, carrying the resolved
substrings exactly as the iterator yields them. -/
inductive Component where
  | text (s : List Nat)
  | project (s : List Nat)
  | context (s : List Nat)
  | custom (key separator value : List Nat)
deriving DecidableEq

/-- The substring content of a component, in reading order (a custom tag is
its key, separator and value in sequence). -/
def Component.bytes : Component → List Nat
  | Component.text s => s
  | Component.project s => s
  | Component.context s => s
  | Component.custom k s v => k ++ s ++ v

/-- The state of the `Components` iterator. -/
structure ComponentsState where
  raw : List Nat
  projectRanges : List ProjectRange
  contextRanges : List ContextRange
  customRanges : List CustomRange
  byteIdx : Nat
deriving DecidableEq

/-- Custom check of `Components::next`, reached when no project or context
range starts at the current index; `rangeEnd` has already been lowered to the
nearest of their starts. -/
def componentsNextCustom (st : ComponentsState) (rangeEnd : Nat) :
    Option (Component × ComponentsState) :=
  match st.customRanges with
  | ur :: urs =>
    if ur.full.low = st.byteIdx then
      some (Component.custom (ur.key.slice st.raw) (ur.separator.slice st.raw)
          (ur.value.slice st.raw),
        { st with customRanges := urs, byteIdx := max st.byteIdx ur.full.high })
    else
      let rangeEnd := min rangeEnd ur.full.low
      some (Component.text ((st.raw.take rangeEnd).drop st.byteIdx),
        { st with byteIdx := rangeEnd })
  | [] =>
    some (Component.text ((st.raw.take rangeEnd).drop st.byteIdx),
      { st with byteIdx := rangeEnd })

/-- Context check of `Components::next`. -/
def componentsNextContext (st : ComponentsState) (rangeEnd : Nat) :
    Option (Component × ComponentsState) :=
  match st.contextRanges with
  | cr :: crs =>
    if cr.full.low = st.byteIdx then
      some (Component.context (cr.full.slice st.raw),
        { st with contextRanges := crs, byteIdx := max st.byteIdx cr.full.high })
    else componentsNextCustom st (min rangeEnd cr.full.low)
  | [] => componentsNextCustom st rangeEnd

/-- `Components::next` (`description.rs` lines 461-535), with the early
returns compiled into the two helpers above.  Two remarks on totality: the
source pops a range by setting `byte_idx` to the range's `high`, which for
spans built by `ByteSpan::new` is never below the current `byte_idx`; the
`max` below makes that step monotone on all states.  Likewise, on states the
indexer never produces the source would panic on a reversed `Text` slice
where our list slice is empty. -/
def componentsNext (st : ComponentsState) : Option (Component × ComponentsState) :=
  if st.raw.length ≤ st.byteIdx then none
  else
    let rangeEnd := st.raw.length
    match st.projectRanges with
    | pr :: prs =>
      if pr.full.low = st.byteIdx then
        some (Component.project (pr.full.slice st.raw),
          { st with projectRanges := prs, byteIdx := max st.byteIdx pr.full.high })
      else componentsNextContext st (min rangeEnd pr.full.low)
    | [] => componentsNextContext st rangeEnd

/-- Fuel-based unfolding of the `Components` iterator into a list. -/
def componentsListAux : Nat → ComponentsState → List Component
  | 0, _ => []
  | fuel + 1, st =>
    match componentsNext st with
    | none => []
    | some (comp, st') => comp :: componentsListAux fuel st'

/-- `Description::components`: the fuel dominates the iterator's measure
(remaining bytes plus remaining ranges), which strictly decreases at every
step the indexer's output can reach. -/
def Description.components (d : Description) : List Component :=
  componentsListAux
    (d.raw.length + d.projects.length + d.contexts.length + d.custom.length + 1)
    ⟨d.raw, d.projects, d.contexts, d.custom, 0⟩

/-- `ProjectIter` resolved to a list: the name substrings. -/
def Description.projectNames (d : Description) : List (List Nat) :=
  d.projects.map (fun r => r.name.slice d.raw)

/-- `ContextIter` resolved to a list. -/
def Description.contextNames (d : Description) : List (List Nat) :=
  d.contexts.map (fun r => r.name.slice d.raw)

/-- `CustomIter` resolved to a list of key/value pairs. -/
def Description.customPairs (d : Description) : List (List Nat × List Nat) :=
  d.custom.map (fun r => (r.key.slice d.raw, r.value.slice d.raw))

/-! ## Task (`task.rs`) -/

/-- `Task`: state (default `Open`), optional priority, optional date
compound, mandatory description. -/
structure Task where
  state : State
  priority : Option Priority
  date_compound : Option DateCompound
  description : Description
deriving DecidableEq

/-- The `try_parse!` macro inside `Task::parse` (`task.rs` lines 98-114):
run `parse_opt` on a copy, commit only when the copy then sits at end of
input or can consume one whitespace byte; otherwise the original parser is
left untouched. -/
def tryParse {α : Type} (f : Parser → Option α × Parser) (p : Parser) :
    Option α × Parser :=
  match parseOpt f p with
  | (some x, pc) =>
    if pc.isEof then (some x, pc)
    else
      match pc.expectWhitespace with
      | (some _, pc') => (some x, pc')
      | (none, _) => (none, p)
  | (none, _) => (none, p)

/-- `impl Parse for Task` (`task.rs` lines 94-127). -/
def taskParse (p : Parser) : Option Task × Parser :=
  let (st, p1) := tryParse stateParse p
  let state := st.getD State.default
  let (priority, p2) := tryParse priorityParse p1
  let (date_compound, p3) := tryParse dateCompoundParse p2
  match descriptionParse p3 with
  | (none, p4) => (none, p4)
  | (some description, p4) =>
    (some ⟨state, priority, date_compound, description⟩, p4)

/-- `impl FromStr for Task` (`task.rs` lines 129-136): note there is no
end-of-input check; trailing bytes are ignored. -/
def taskFromStr (s : List Nat) : Option Task :=
  (taskParse (Parser.new s)).1

/-- `impl fmt::Display for Task` (`task.rs` lines 61-81): push the state when
it is not `Open`, then priority and date compound when present, then the
description, and join with single spaces. -/
def joinSpace : List (List Nat) → List Nat
  | [] => []
  | [x] => x
  | x :: xs => x ++ 32 :: joinSpace xs

/-- `Task::to_string`. -/
def taskDisplay (t : Task) : List Nat :=
  joinSpace
    ((if t.state ≠ State.Open then [stateDisplay t.state] else []) ++
      (match t.priority with
        | some pr => [priorityDisplay pr]
        | none => []) ++
      (match t.date_compound with
        | some dc => [dateCompoundDisplay dc]
        | none => []) ++
      [descriptionDisplay t.description])

/-- `TaskBuilder::build` (`task.rs` lines 186-196): all tasks the builder can
produce, with `From<S> for Description` applied to the raw description text. -/
def buildTask (state : Option State) (priority : Option Priority)
    (date_compound : Option DateCompound) (d : List Nat) : Task :=
  ⟨state.getD State.default, priority, date_compound, Description.new d⟩

/-- The parser state reached after the three optional token attempts of
`Task::parse`, just before the mandatory description parse (proof-side name
for an intermediate state of `taskParse`). -/
def afterOptTokens (p : Parser) : Parser :=
  (tryParse dateCompoundParse (tryParse priorityParse (tryParse stateParse p).2).2).2

/-- `Priority::A`. -/
def Priority.A : Priority := ⟨0, by omega⟩

/-- `Priority::B`. -/
def Priority.B : Priority := ⟨1, by omega⟩

/-- `Priority::Z`. -/
def Priority.Z : Priority := ⟨25, by omega⟩

/-- ASCII byte encoding of a string literal (all literals below are ASCII). -/
def ascii (s : String) : List Nat := s.data.map Char.toNat

/-- In-range builder dates: the field ranges accepted by `Date::from_ymd_opt`
together with a four-digit non-negative year (the display width `{:04}`). -/
def dateOK (dt : Date) : Prop :=
  0 ≤ dt.year ∧ dt.year ≤ 9999 ∧ 1 ≤ dt.month ∧ dt.month ≤ 12 ∧
    1 ≤ dt.day ∧ dt.day ≤ 31

instance (dt : Date) : Decidable (dateOK dt) := by
  unfold dateOK
  infer_instance

/-- Every date of the compound is in range. -/
def dateCompoundOK : DateCompound → Prop
  | DateCompound.created c => dateOK c
  | DateCompound.completed cr cm => dateOK cr ∧ dateOK cm

instance (c : DateCompound) : Decidable (dateCompoundOK c) := by
  cases c <;> (unfold dateCompoundOK; infer_instance)

/-- A span that lies at or after position `i` and inside a buffer of length
`n`, with positive length (every span the indexer records is of this form). -/
def SpanOK (i n : Nat) (f : ByteSpan) : Prop :=
  i ≤ f.low ∧ f.low < f.high ∧ f.high ≤ n

instance (i n : Nat) (f : ByteSpan) : Decidable (SpanOK i n f) := by
  unfold SpanOK
  infer_instance

/-- Two spans do not overlap. -/
def SpanDisj (f g : ByteSpan) : Prop := f.high ≤ g.low ∨ g.high ≤ f.low

instance (f g : ByteSpan) : Decidable (SpanDisj f g) := by
  unfold SpanDisj
  infer_instance

/-- The internal geometry of a recorded custom range: key, separator and
value are adjacent, and the full span is their union. -/
def CustomShapeOK (u : CustomRange) : Prop :=
  u.full.low = u.key.low ∧ u.key.high = u.separator.low ∧
    u.separator.high = u.value.low ∧ u.full.high = u.value.high ∧
    u.key.low ≤ u.key.high ∧ u.separator.low ≤ u.separator.high ∧
    u.value.low ≤ u.value.high

instance (u : CustomRange) : Decidable (CustomShapeOK u) := by
  unfold CustomShapeOK
  infer_instance

/-- The content of a recorded custom range: key and value are made of
key/value bytes (no whitespace, no colon), the separator is a single colon,
and the range ends at a whitespace byte or at the end of the buffer. -/
def CustomContentOK (bs : List Nat) (u : CustomRange) : Prop :=
  (∀ b ∈ u.key.slice bs, isKeyValueByte b = true) ∧
    u.separator.slice bs = [58] ∧
    (∀ b ∈ u.value.slice bs, isKeyValueByte b = true) ∧
    (u.full.high = bs.length ∨
      ∃ b, bs.get? u.full.high = some b ∧ isWs b = true)

/-- The indexer's output invariant, relative to the scan position `i`: all
recorded spans are nonempty, lie in `[i, bs.length)`, each list is ordered
and non-overlapping, the three lists are mutually non-overlapping, and each
custom range is well-shaped with the right content. -/
def IndexInv (bs : List Nat) (i : Nat) (ls : RangeLists) : Prop :=
  (∀ r ∈ ls.1, SpanOK i bs.length r.full) ∧
    (∀ r ∈ ls.2.1, SpanOK i bs.length r.full) ∧
    (∀ r ∈ ls.2.2, SpanOK i bs.length r.full ∧ CustomShapeOK r ∧
      CustomContentOK bs r) ∧
    List.Pairwise (fun f g => f.high ≤ g.low) (ls.1.map (fun r => r.full)) ∧
    List.Pairwise (fun f g => f.high ≤ g.low) (ls.2.1.map (fun r => r.full)) ∧
    List.Pairwise (fun f g => f.high ≤ g.low) (ls.2.2.map (fun r => r.full)) ∧
    (∀ p ∈ ls.1, ∀ c ∈ ls.2.1, SpanDisj p.full c.full) ∧
    (∀ p ∈ ls.1, ∀ u ∈ ls.2.2, SpanDisj p.full u.full) ∧
    (∀ c ∈ ls.2.1, ∀ u ∈ ls.2.2, SpanDisj c.full u.full)

/-! ## Specifications of the cursor primitives, phrased on `remain` -/

theorem remain_new (bs : List Nat) : (Parser.new bs).remain = bs := rfl

theorem remain_nil_iff (c : Cursor) : c.remain = [] ↔ c.bytes.length ≤ c.index := by
  simp [Cursor.remain, List.drop_eq_nil_iff]

theorem isEof_iff (c : Cursor) : c.isEof = true ↔ c.remain = [] := by
  simp [Cursor.isEof, remain_nil_iff]

theorem first_eq (c : Cursor) : c.first = c.remain.head? := by
  simp [Cursor.first, Cursor.nth, Cursor.get, Cursor.remain, List.head?_drop,
    List.get?_eq_getElem?]

theorem first_of_remain {c : Cursor} {b : Nat} {r : List Nat}
    (h : c.remain = b :: r) : c.first = some b := by
  rw [first_eq, h]; rfl

theorem first_of_remain_nil {c : Cursor} (h : c.remain = []) : c.first = none := by
  rw [first_eq, h]; rfl

theorem index_lt_of_remain {c : Cursor} {b : Nat} {r : List Nat}
    (h : c.remain = b :: r) : c.index < c.bytes.length := by
  by_contra hle
  rw [(remain_nil_iff c).2 (by omega)] at h
  exact List.noConfusion h

theorem advance_one {c : Cursor} {b : Nat} {r : List Nat} (h : c.remain = b :: r) :
    (c.advance 1).bytes = c.bytes ∧ (c.advance 1).index = c.index + 1 ∧
      (c.advance 1).remain = r := by
  have hlt := index_lt_of_remain h
  have hidx : (c.advance 1).index = c.index + 1 := by
    simp only [Cursor.advance, Cursor.advanceTo]
    omega
  refine ⟨rfl, hidx, ?_⟩
  have h2 : (c.advance 1).remain = c.remain.drop 1 := by
    unfold Cursor.remain Cursor.advance Cursor.advanceTo
    rw [List.drop_drop]
    congr 1 <;> omega
  rw [h2, h]
  rfl

theorem remain_length (c : Cursor) : c.remain.length = c.bytes.length - c.index := by
  simp [Cursor.remain]

theorem consumeWhileAux_spec (p : Nat → Bool) :
    ∀ (fuel : Nat) (c : Cursor), c.remain.length ≤ fuel →
      (Cursor.consumeWhileAux p fuel c).bytes = c.bytes ∧
      (Cursor.consumeWhileAux p fuel c).index
        = c.index + (c.remain.takeWhile p).length := by
  intro fuel
  induction fuel with
  | zero =>
    intro c hlen
    have : c.remain = [] := List.eq_nil_of_length_eq_zero (by omega)
    simp [Cursor.consumeWhileAux, this]
  | succ fuel ih =>
    intro c hlen
    rcases hr : c.remain with _ | ⟨b, r⟩
    · simp [Cursor.consumeWhileAux, first_of_remain_nil hr, hr]
    · have hfirst := first_of_remain hr
      by_cases hp : p b
      · obtain ⟨hb, hi, hrem⟩ := advance_one hr
        have hlen' : (c.advance 1).remain.length ≤ fuel := by
          rw [hrem]
          rw [hr] at hlen
          simp only [List.length_cons] at hlen
          omega
        obtain ⟨ihb, ihi⟩ := ih (c.advance 1) hlen'
        have heq : Cursor.consumeWhileAux p (fuel + 1) c
            = Cursor.consumeWhileAux p fuel (c.advance 1) := by
          rw [Cursor.consumeWhileAux, hfirst]
          simp [hp]
        rw [heq]
        refine ⟨ihb.trans hb, ?_⟩
        rw [ihi, hi, hrem]
        simp only [List.takeWhile_cons, hp, if_true, List.length_cons]
        omega
      · simp [Cursor.consumeWhileAux, hfirst, hp, hr, List.takeWhile_cons]

theorem consumeWhile_bytes (c : Cursor) (p : Nat → Bool) :
    (c.consumeWhile p).bytes = c.bytes :=
  (consumeWhileAux_spec p _ c (by rw [remain_length])).1

theorem consumeWhile_index (c : Cursor) (p : Nat → Bool) :
    (c.consumeWhile p).index = c.index + (c.remain.takeWhile p).length :=
  (consumeWhileAux_spec p _ c (by rw [remain_length])).2

theorem consumeWhile_remain (c : Cursor) (p : Nat → Bool) :
    (c.consumeWhile p).remain = c.remain.dropWhile p := by
  have hb := consumeWhile_bytes c p
  have hi := consumeWhile_index c p
  have hdrop : (c.consumeWhile p).remain
      = c.remain.drop (c.remain.takeWhile p).length := by
    unfold Cursor.remain
    rw [hb, hi, List.drop_drop]
    congr 1 <;> omega
  rw [hdrop]
  nth_rewrite 2 [← List.takeWhile_append_dropWhile p c.remain]
  rw [List.drop_left]

/-- Bundled specification of one-byte advancement used by all primitive ops. -/
theorem advance_one_spec {c : Cursor} {b : Nat} {r : List Nat}
    (h : c.remain = b :: r) :
    (c.advance 1).bytes = c.bytes ∧ (c.advance 1).index = c.index + 1 ∧
      (c.advance 1).remain = r :=
  advance_one h

theorem advance_spec {c : Cursor} {n : Nat} (h0 : 0 < n)
    (h : n ≤ c.remain.length) :
    (c.advance n).bytes = c.bytes ∧ (c.advance n).index = c.index + n ∧
      (c.advance n).remain = c.remain.drop n := by
  have hrl := remain_length c
  have hlt : c.index < c.bytes.length := by omega
  refine ⟨rfl, ?_, ?_⟩
  · unfold Cursor.advance Cursor.advanceTo
    simp only
    omega
  · unfold Cursor.remain Cursor.advance Cursor.advanceTo
    simp only
    rw [List.drop_drop]
    congr 1 <;> omega

theorem expectU8_pos {c : Cursor} {b : Nat} {r : List Nat} (h : c.remain = b :: r) :
    Parser.expectU8 c b = (some b, c.advance 1) := by
  rw [Parser.expectU8, first_of_remain h]
  simp

theorem expectU8_neg {c : Cursor} {b e : Nat} {r : List Nat}
    (h : c.remain = b :: r) (hne : b ≠ e) : Parser.expectU8 c e = (none, c) := by
  rw [Parser.expectU8, first_of_remain h]
  simp [hne]

theorem expectU8_nil {c : Cursor} (h : c.remain = []) : Parser.expectU8 c e = (none, c) := by
  rw [Parser.expectU8, first_of_remain_nil h]

theorem expectWhitespace_pos {c : Cursor} {b : Nat} {r : List Nat}
    (h : c.remain = b :: r) (hw : isWs b = true) :
    Parser.expectWhitespace c = (some (), c.advance 1) := by
  rw [Parser.expectWhitespace, first_of_remain h]
  simp [hw]

theorem expectWhitespace_neg {c : Cursor} {b : Nat} {r : List Nat}
    (h : c.remain = b :: r) (hw : isWs b = false) :
    Parser.expectWhitespace c = (none, c) := by
  rw [Parser.expectWhitespace, first_of_remain h]
  simp [hw]

theorem expectWhitespace_nil {c : Cursor} (h : c.remain = []) :
    Parser.expectWhitespace c = (none, c) := by
  rw [Parser.expectWhitespace, first_of_remain_nil h]

theorem parseDigit_pos {c : Cursor} {b : Nat} {r : List Nat}
    (h : c.remain = b :: r) (hd : 48 ≤ b ∧ b ≤ 57) :
    Parser.parseDigit c = (some (b - 48), c.advance 1) := by
  rw [Parser.parseDigit, first_of_remain h]
  simp [hd]

theorem parseDigit_neg {c : Cursor} {b : Nat} {r : List Nat}
    (h : c.remain = b :: r) (hd : ¬(48 ≤ b ∧ b ≤ 57)) :
    Parser.parseDigit c = (none, c) := by
  rw [Parser.parseDigit, first_of_remain h]
  simp [hd]

theorem parseDigit_nil {c : Cursor} (h : c.remain = []) :
    Parser.parseDigit c = (none, c) := by
  rw [Parser.parseDigit, first_of_remain_nil h]

theorem parseAlphaUpper_pos {c : Cursor} {b : Nat} {r : List Nat}
    (h : c.remain = b :: r) (hd : 65 ≤ b ∧ b ≤ 90) :
    Parser.parseAlphaUpper c = (some b, c.advance 1) := by
  rw [Parser.parseAlphaUpper, first_of_remain h]
  simp [hd]

theorem parseAlphaUpper_neg {c : Cursor} {b : Nat} {r : List Nat}
    (h : c.remain = b :: r) (hd : ¬(65 ≤ b ∧ b ≤ 90)) :
    Parser.parseAlphaUpper c = (none, c) := by
  rw [Parser.parseAlphaUpper, first_of_remain h]
  simp [hd]

theorem parseAlphaUpper_nil {c : Cursor} (h : c.remain = []) :
    Parser.parseAlphaUpper c = (none, c) := by
  rw [Parser.parseAlphaUpper, first_of_remain_nil h]

theorem parseU8_cons {c : Cursor} {b : Nat} {r : List Nat} (h : c.remain = b :: r) :
    Parser.parseU8 c = (some b, c.advance 1) := by
  rw [Parser.parseU8, Cursor.consume, first_of_remain h]

theorem parseU8_nil {c : Cursor} (h : c.remain = []) : Parser.parseU8 c = (none, c) := by
  rw [Parser.parseU8, Cursor.consume, first_of_remain_nil h]

/-- `expect_slice` when the expected (non-empty) slice is present. -/
theorem expectSlice_pos {c : Parser} {e r : List Nat} (hpos : 0 < e.length)
    (h : c.remain = e ++ r) :
    Parser.expectSlice c e = (some e, c.advance e.length) := by
  have hrl := remain_length c
  rw [h] at hrl
  simp only [List.length_append] at hrl
  have hslice : (c.bytes.take (c.index + (e.length - 1) + 1)).drop c.index = e := by
    rw [List.drop_take]
    have h2 : c.index + (e.length - 1) + 1 - c.index = e.length := by omega
    rw [h2, show c.bytes.drop c.index = c.remain from rfl, h, List.take_left]
  simp only [Parser.expectSlice, if_pos hpos, Cursor.inBounds]
  rw [hslice]
  have hb : decide (c.index + (e.length - 1) < c.bytes.length) = true := by
    simp
    omega
  rw [hb]
  simp

/-- `expect_slice` when enough bytes remain but they differ from the
expected slice. -/
theorem expectSlice_neg {c : Parser} {e : List Nat} (hpos : 0 < e.length)
    (hlen : e.length ≤ c.remain.length) (hne : c.remain.take e.length ≠ e) :
    Parser.expectSlice c e = (none, c) := by
  have hrl := remain_length c
  have hslice : (c.bytes.take (c.index + (e.length - 1) + 1)).drop c.index
      = c.remain.take e.length := by
    rw [List.drop_take]
    have h2 : c.index + (e.length - 1) + 1 - c.index = e.length := by omega
    rw [h2]
    rfl
  simp only [Parser.expectSlice, if_pos hpos, Cursor.inBounds]
  rw [hslice]
  have hb : decide (c.index + (e.length - 1) < c.bytes.length) = true := by
    simp
    omega
  rw [hb]
  simp [hne]

/-- `expect_slice` when fewer bytes remain than the expected slice needs. -/
theorem expectSlice_short {c : Parser} {e : List Nat} (hpos : 0 < e.length)
    (hlen : c.remain.length < e.length) :
    Parser.expectSlice c e = (none, c) := by
  have hrl := remain_length c
  simp only [Parser.expectSlice, if_pos hpos, Cursor.inBounds]
  have hb : decide (c.index + (e.length - 1) < c.bytes.length) = false := by
    simp
    omega
  rw [hb]
  simp

theorem peek_eq (c : Cursor) : Parser.peek c = c.remain.head? := first_eq c

end Tdtxt

namespace Tdtxt

/-! ## Claim theorems, part 1 -/

/-- C8: for every parser state `p` and every `parse` function, if `parse_opt`
returns `None` the parser is restored exactly to `p`; if it returns `Some`,
the parser is left exactly where `parse` put it, after the consumed token. -/
theorem parseOpt_backtracks {α : Type} (f : Parser → Option α × Parser) (p : Parser) :
    ((parseOpt f p).1 = none → (parseOpt f p).2 = p) ∧
    (∀ a : α, (parseOpt f p).1 = some a → parseOpt f p = f p) := by
  unfold parseOpt
  rcases h : f p with ⟨_ | x, p'⟩ <;> simp [h]

/-- C8 witness: `parse_opt` of `State` on the input `"a"` fails and restores
the fresh parser. -/
theorem parseOpt_backtracks_witness :
    (parseOpt stateParse (Parser.new [97])).2 = Parser.new [97] :=
  (parseOpt_backtracks stateParse (Parser.new [97])).1 (by decide)

/-- C9: the implemented `Ord` on `Priority` is the reverse of alphabetical
order: alphabetically earlier letters compare greater, `A` beats every other
value and every other value beats `Z`. -/
theorem priority_ord_reversed :
    (∀ x y : Priority, x.val < y.val → Priority.cmp x y = Ordering.gt) ∧
    (∀ q : Priority, q ≠ Priority.A → Priority.cmp Priority.A q = Ordering.gt) ∧
    (∀ q : Priority, q ≠ Priority.Z → Priority.cmp q Priority.Z = Ordering.gt) := by
  have hlt : ∀ x y : Priority, x.val < y.val → Priority.cmp x y = Ordering.gt := by
    intro x y hxy
    unfold Priority.cmp
    have hc : compare x.val y.val = Ordering.lt := Nat.compare_eq_lt.mpr hxy
    rw [hc]
  refine ⟨hlt, ?_, ?_⟩
  · intro q hq
    apply hlt
    have hne : q.val ≠ 0 := by
      intro h0
      exact hq (Fin.ext h0)
    have hA : Priority.A.val = 0 := rfl
    omega
  · intro q hq
    apply hlt
    have hne : q.val ≠ 25 := by
      intro h0
      exact hq (Fin.ext h0)
    have hl : q.val < 26 := q.isLt
    have hZ : Priority.Z.val = 25 := rfl
    omega

/-- C9 witness: `A` compares greater than `B`, `A` beats `Z`, and `B` beats
`Z`, at concrete values. -/
theorem priority_ord_reversed_witness :
    Priority.cmp Priority.A Priority.B = Ordering.gt ∧
    Priority.cmp Priority.A Priority.Z = Ordering.gt ∧
    Priority.cmp Priority.B Priority.Z = Ordering.gt :=
  ⟨priority_ord_reversed.1 Priority.A Priority.B (by decide),
   (priority_ord_reversed.2.1) Priority.Z (by decide),
   (priority_ord_reversed.2.2) Priority.B (by decide)⟩

/-- C1 (evaluation at the failing input): on the flagship example line the
current module code commits the `x` state but rolls the priority token back
(its parser consumes `") "` and the task-level gate then demands yet another
whitespace byte), so the parse yields `priority = None`, no date compound,
and the whole tail `"(A) 2016-05-20 ..."` as description text; re-formatting
that task still reproduces the input byte-for-byte. -/
theorem task_example_line_eval :
    (taskFromStr (ascii "x (A) 2016-05-20 2016-04-30 measure space for +chapelShelving @chapel due:2016-05-30")).map
        (fun t => (t.state, t.priority, t.date_compound, t.description.raw))
      = some (State.Done, none, none,
          ascii "(A) 2016-05-20 2016-04-30 measure space for +chapelShelving @chapel due:2016-05-30") ∧
    (taskFromStr (ascii "x (A) 2016-05-20 2016-04-30 measure space for +chapelShelving @chapel due:2016-05-30")).map
        taskDisplay
      = some (ascii "x (A) 2016-05-20 2016-04-30 measure space for +chapelShelving @chapel due:2016-05-30") := by
  constructor
  · decide
  · decide

/-- C2 counterexample: the builder task with priority `A` and description
`"a"` formats to `"(A) a"`, which parses back with no priority and the
description `"(A) a"` — not the original task. -/
theorem builder_priority_no_roundtrip :
    taskFromStr (taskDisplay (buildTask none (some Priority.A) none (ascii "a")))
      ≠ some (buildTask none (some Priority.A) none (ascii "a")) := by
  decide

/-- C3 counterexample: `Priority::parse` fails on the three-byte input `"(A)"`
(it demands the two-byte slice `") "` after the letter). -/
theorem priority_paren_only_fails :
    (priorityParse (Parser.new (ascii "(A)"))).1 = none := by
  decide

/-- C6 counterexample: the word `"+a:b:c"` has two colons and the run after
the first colon is followed by a second colon, yet it is classified as a
project (not plain text): the components view yields a `Project` segment. -/
theorem two_colon_plus_word_is_project :
    (Description.new (ascii "+a:b:c")).components
        = [Component.project (ascii "+a:b:c")] ∧
    (Description.new (ascii "+a:b:c")).custom = [] := by
  constructor
  · decide
  · decide

/-- C7 counterexample: on the raw bytes `"a\n"` followed by the invalid UTF-8
byte `0xFF`, no optional token is consumed (the remainder at the description
step is the whole input), the remainder is not valid UTF-8, and yet
`Task::parse` succeeds — the parser only validates the bytes before the first
line feed. -/
theorem invalid_utf8_after_newline_no_error :
    (taskFromStr [97, 10, 255]).isSome = true ∧
    (afterOptTokens (Parser.new [97, 10, 255])).remain = [97, 10, 255] ∧
    utf8Valid [97, 10, 255] = false := by
  refine ⟨by decide, by decide, by decide⟩

/-! ## Parse characterizations -/

theorem parseOpt_some_iff {α : Type} (f : Parser → Option α × Parser)
    (p q : Parser) (a : α) :
    parseOpt f p = (some a, q) ↔ f p = (some a, q) := by
  unfold parseOpt
  rcases h : f p with ⟨_ | x, p'⟩ <;> simp

theorem parseOpt_none_snd {α : Type} (f : Parser → Option α × Parser)
    (p : Parser) : (parseOpt f p).1 = none → parseOpt f p = (none, p) := by
  unfold parseOpt
  rcases h : f p with ⟨_ | x, p'⟩ <;> simp

/-- Success shape of `Priority::parse`: on `"(X) "` (uppercase `X`) it
returns the matching discriminant and advances by four bytes. -/
theorem priorityParse_pos {p : Parser} {X : Nat} {r : List Nat}
    (h1 : 65 ≤ X) (h2 : X ≤ 90) (hr : p.remain = 40 :: X :: 41 :: 32 :: r) :
    (priorityParse p).1 = some ⟨X - 65, by omega⟩ ∧
      (priorityParse p).2.bytes = p.bytes ∧
      (priorityParse p).2.index = p.index + 4 ∧
      (priorityParse p).2.remain = r := by
  obtain ⟨hb1, hi1, hm1⟩ := advance_one hr
  obtain ⟨hb2, hi2, hm2⟩ := advance_one (c := p.advance 1) hm1
  have e1 := expectU8_pos hr
  have e2 := parseAlphaUpper_pos hm1 ⟨h1, h2⟩
  have e4 : Parser.expectSlice ((p.advance 1).advance 1) [41, 32]
      = (some [41, 32], ((p.advance 1).advance 1).advance 2) :=
    expectSlice_pos (by decide) (by rw [hm2]; rfl)
  have e3 : Priority.tryFrom X = some ⟨X - 65, by omega⟩ := by
    unfold Priority.tryFrom
    rw [dif_pos ⟨h1, h2⟩]
  obtain ⟨hb4, hi4, hm4⟩ := advance_spec (c := (p.advance 1).advance 1)
    (n := 2) (by decide) (by rw [hm2]; simp)
  unfold priorityParse
  simp only [e1, e2, e3, e4]
  refine ⟨by simp, ?_, ?_, ?_⟩
  · rw [hb4, hb2, hb1]
  · rw [hi4, hi2, hi1]
  · rw [hm4, hm2]
    rfl

/-- Failure shapes of `Priority::parse`: anything that does not start with
`(`, an uppercase letter, `)` and a space fails. -/
theorem priorityParse_none {p : Parser}
    (h : ∀ X r, p.remain = 40 :: X :: 41 :: 32 :: r → ¬(65 ≤ X ∧ X ≤ 90)) :
    (priorityParse p).1 = none := by
  unfold priorityParse
  rcases hr0 : p.remain with _ | ⟨b0, r0⟩
  · simp [expectU8_nil hr0]
  · by_cases hb0 : b0 = 40
    · subst hb0
      simp only [expectU8_pos hr0]
      obtain ⟨hb1, hi1, hm1⟩ := advance_one hr0
      rcases hr1 : r0 with _ | ⟨b1, r1⟩
      · simp [parseAlphaUpper_nil (show (p.advance 1).remain = [] by rw [hm1, hr1])]
      · by_cases hb1u : 65 ≤ b1 ∧ b1 ≤ 90
        · simp only [parseAlphaUpper_pos
            (show (p.advance 1).remain = b1 :: r1 by rw [hm1, hr1]) hb1u]
          have e3 : Priority.tryFrom b1 = some ⟨b1 - 65, by omega⟩ := by
            unfold Priority.tryFrom
            rw [dif_pos hb1u]
          simp only [e3]
          obtain ⟨hb2, hi2, hm2⟩ := advance_one (c := p.advance 1)
            (show (p.advance 1).remain = b1 :: r1 by rw [hm1, hr1])
          rcases hr2 : r1 with _ | ⟨b2, r2⟩
          · simp [expectSlice_short (c := (p.advance 1).advance 1) (e := [41, 32])
              (by decide) (by rw [hm2, hr2]; norm_num)]
          · rcases hr3 : r2 with _ | ⟨b3, r3⟩
            · simp [expectSlice_short (c := (p.advance 1).advance 1) (e := [41, 32])
                (by decide) (by rw [hm2, hr2, hr3]; norm_num)]
            · by_cases hpair : b2 = 41 ∧ b3 = 32
              · exfalso
                obtain ⟨hp1, hp2⟩ := hpair
                subst hp1
                subst hp2
                exact h b1 r3 (by rw [hr0, hr1, hr2, hr3]) hb1u
              · simp [expectSlice_neg (c := (p.advance 1).advance 1) (e := [41, 32])
                  (by decide)
                  (by rw [hm2, hr2, hr3]; simp)
                  (by
                    rw [hm2, hr2, hr3]
                    intro hc
                    simp only [List.take, List.cons.injEq] at hc
                    exact hpair ⟨hc.1, hc.2.1⟩)]
        · simp [parseAlphaUpper_neg
            (show (p.advance 1).remain = b1 :: r1 by rw [hm1, hr1]) hb1u]
    · simp [expectU8_neg hr0 hb0]

/-- C3 (amended): `Priority::parse` succeeds exactly on inputs whose next
four bytes are `(`, an uppercase letter, `)` and a space — the letter maps to
the corresponding enum value and the cursor is left after the consumed space,
four bytes in; it fails whenever the byte between the parens is not an
uppercase ASCII letter, or the closing paren (or its mandatory following
space) is missing. -/
theorem priority_token_grammar (p : Parser) :
    (∀ X r (h1 : 65 ≤ X) (h2 : X ≤ 90), p.remain = 40 :: X :: 41 :: 32 :: r →
      (priorityParse p).1 = some ⟨X - 65, by omega⟩ ∧
        (priorityParse p).2.index = p.index + 4 ∧
        (priorityParse p).2.remain = r) ∧
    ((∀ X r, p.remain = 40 :: X :: 41 :: 32 :: r → ¬(65 ≤ X ∧ X ≤ 90)) →
      (priorityParse p).1 = none) := by
  constructor
  · intro X r h1 h2 hr
    obtain ⟨ha, _, hb, hc⟩ := priorityParse_pos h1 h2 hr
    exact ⟨ha, hb, hc⟩
  · exact priorityParse_none

/-- C3 witness: on `"(B) x"` the parser yields `B` with the cursor four bytes
in, by the grammar theorem at a concrete input. -/
theorem priority_token_grammar_witness :
    (priorityParse (Parser.new (ascii "(B) x"))).1 = some ⟨1, by omega⟩ ∧
      (priorityParse (Parser.new (ascii "(B) x"))).2.index = 4 ∧
      (priorityParse (Parser.new (ascii "(B) x"))).2.remain = ascii "x" :=
  (priority_token_grammar (Parser.new (ascii "(B) x"))).1 66 (ascii "x")
    (by norm_num) (by norm_num) (by decide)

/-- Inversion of `DateCompound::parse`: every success starts with a first
date; the result either is `Created` with the cursor right after that date,
or is `Completed` built from a second date parsed after exactly one
whitespace byte, committed only because the byte after it is end-of-input or
whitespace, with the first textual date in the `completed` field and the
second in `created`. -/
theorem dateCompoundParse_spec (p : Parser) (dc : DateCompound) (p' : Parser)
    (h : dateCompoundParse p = (some dc, p')) :
    ∃ d1 p1, dateParse p = (some d1, p1) ∧
      ((dc = DateCompound.created d1 ∧ p' = p1) ∨
       (∃ d2, dc = DateCompound.completed d2 d1 ∧
         ((Parser.peek p').map isWs).getD true = true ∧
         (Parser.expectWhitespace p1).1.isSome = true ∧
         dateParse (Parser.expectWhitespace p1).2 = (some d2, p'))) := by
  unfold dateCompoundParse at h
  rcases h1 : parseOpt dateParse p with ⟨_ | d1, q1⟩
  · rw [h1] at h
    simp at h
  · rw [h1] at h
    simp only at h
    have hd1 : dateParse p = (some d1, q1) :=
      (parseOpt_some_iff dateParse p q1 d1).mp h1
    refine ⟨d1, q1, hd1, ?_⟩
    rcases h2 : Parser.expectWhitespace q1 with ⟨o2, q2⟩
    rw [h2] at h
    rcases o2 with _ | u
    · simp only at h
      obtain ⟨hdc, hp⟩ := Prod.mk.injEq .. ▸ h
      exact Or.inl ⟨(Option.some.injEq .. ▸ hdc).symm, hp.symm⟩
    · simp only at h
      rcases h3 : parseOpt dateParse q2 with ⟨_ | d2, q3⟩
      · rw [h3] at h
        simp only at h
        obtain ⟨hdc, hp⟩ := Prod.mk.injEq .. ▸ h
        exact Or.inl ⟨(Option.some.injEq .. ▸ hdc).symm, hp.symm⟩
      · rw [h3] at h
        simp only at h
        by_cases hc : ((Parser.peek q3).map isWs).getD true = true
        · rw [if_pos hc] at h
          obtain ⟨hdc, hp⟩ := Prod.mk.injEq .. ▸ h
          subst hp
          refine Or.inr ⟨d2, (Option.some.injEq .. ▸ hdc).symm, hc, ?_, ?_⟩
          · rfl
          · exact (parseOpt_some_iff dateParse q2 q3 d2).mp h3
        · rw [if_neg hc] at h
          obtain ⟨hdc, hp⟩ := Prod.mk.injEq .. ▸ h
          exact Or.inl ⟨(Option.some.injEq .. ▸ hdc).symm, hp.symm⟩

/-- C4: `"2000-01-01 1970-01-01 description"` consumes both dates into
`Completed { created: 1970-01-01, completed: 2000-01-01 }` (cursor at byte
21); `"1234-07-16 description"` consumes only the first date into `Created`
(cursor at byte 10); and in general every successful parse either consumed
one date, or consumed a second date only because the byte after it is
end-of-input or ASCII whitespace, un-reversing the two dates into the named
fields. -/
theorem date_compound_disambiguation :
    dateCompoundParse (Parser.new (ascii "2000-01-01 1970-01-01 description"))
      = (some (DateCompound.completed ⟨1970, 1, 1⟩ ⟨2000, 1, 1⟩),
         ⟨ascii "2000-01-01 1970-01-01 description", 21⟩) ∧
    dateCompoundParse (Parser.new (ascii "1234-07-16 description"))
      = (some (DateCompound.created ⟨1234, 7, 16⟩),
         ⟨ascii "1234-07-16 description", 10⟩) ∧
    (∀ p dc p', dateCompoundParse p = (some dc, p') →
      ∃ d1 p1, dateParse p = (some d1, p1) ∧
        ((dc = DateCompound.created d1 ∧ p' = p1) ∨
         (∃ d2, dc = DateCompound.completed d2 d1 ∧
           ((Parser.peek p').map isWs).getD true = true ∧
           (Parser.expectWhitespace p1).1.isSome = true ∧
           dateParse (Parser.expectWhitespace p1).2 = (some d2, p')))) :=
  ⟨by decide, by decide, dateCompoundParse_spec⟩

/-- C4 witness: the general disambiguation clause applied to the concrete
input `"1234-07-16 x"`. -/
theorem date_compound_disambiguation_witness :
    ∃ d1 p1,
      dateParse (Parser.new (ascii "1234-07-16 x")) = (some d1, p1) ∧
        ((DateCompound.created ⟨1234, 7, 16⟩ = DateCompound.created d1 ∧
            (⟨ascii "1234-07-16 x", 10⟩ : Parser) = p1) ∨
         (∃ d2, DateCompound.created ⟨1234, 7, 16⟩ = DateCompound.completed d2 d1 ∧
           ((Parser.peek (⟨ascii "1234-07-16 x", 10⟩ : Parser)).map isWs).getD true
              = true ∧
           (Parser.expectWhitespace p1).1.isSome = true ∧
           dateParse (Parser.expectWhitespace p1).2
              = (some d2, (⟨ascii "1234-07-16 x", 10⟩ : Parser)))) :=
  date_compound_disambiguation.2.2 (Parser.new (ascii "1234-07-16 x"))
    (DateCompound.created ⟨1234, 7, 16⟩) ⟨ascii "1234-07-16 x", 10⟩ (by decide)

/-! ## Description parse and task structure -/

theorem parseUntil_pos (p : Parser) (t : Nat) (h : p.remain ≠ []) :
    (Parser.parseUntil p t).1 = some (p.remain.takeWhile (fun b => b ≠ t)) ∧
    (Parser.parseUntil p t).2 = p.consumeWhile (fun b => b ≠ t) := by
  have hne : p.isEof = false := by
    rcases heof : p.isEof
    · rfl
    · exact absurd ((isEof_iff p).mp heof) h
  unfold Parser.parseUntil
  rw [hne]
  constructor
  · simp only [Bool.false_eq_true, if_false]
    congr 1
    rw [consumeWhile_bytes, consumeWhile_index, List.drop_take]
    have hsub : p.index + (p.remain.takeWhile (fun b => b ≠ t)).length - p.index
        = (p.remain.takeWhile (fun b => b ≠ t)).length := by omega
    rw [hsub, show p.bytes.drop p.index = p.remain from rfl]
    nth_rewrite 2 [← List.takeWhile_append_dropWhile (fun b => b ≠ t) p.remain]
    rw [List.take_left]
  · simp

theorem descriptionParse_nil (p : Parser) (h : p.remain = []) :
    descriptionParse p = (none, p) := by
  have heof : p.isEof = true := (isEof_iff p).mpr h
  unfold descriptionParse Parser.parseUntil
  rw [heof]
  simp

/-- Equational form of `Task::parse` through the intermediate parser state
(definitional, thanks to structure eta). -/
theorem taskParse_def (p : Parser) :
    taskParse p =
      (match descriptionParse (afterOptTokens p) with
       | (none, p4) => (none, p4)
       | (some d, p4) =>
         (some ⟨(tryParse stateParse p).1.getD State.default,
             (tryParse priorityParse (tryParse stateParse p).2).1,
             (tryParse dateCompoundParse
               (tryParse priorityParse (tryParse stateParse p).2).2).1,
             d⟩, p4)) := by
  unfold taskParse afterOptTokens
  rcases tryParse stateParse p with ⟨st, p1⟩
  dsimp only

theorem taskParse_none_iff (p : Parser) :
    (taskParse p).1 = none ↔ (descriptionParse (afterOptTokens p)).1 = none := by
  rw [taskParse_def]
  rcases hd : descriptionParse (afterOptTokens p) with ⟨_ | d, p4⟩ <;> simp

theorem descriptionParse_none_iff (p : Parser) :
    (descriptionParse p).1 = none ↔
      (p.remain = [] ∨ utf8Valid (p.remain.takeWhile (fun b => b ≠ 10)) = false) := by
  by_cases h : p.remain = []
  · rw [descriptionParse_nil p h]
    simp [h]
  · obtain ⟨h1, h2⟩ := parseUntil_pos p 10 h
    unfold descriptionParse
    rcases hpu : Parser.parseUntil p 10 with ⟨o, p'⟩
    rw [hpu] at h1 h2
    dsimp only at h1 h2
    subst h1
    subst h2
    dsimp only
    by_cases hv : utf8Valid (p.remain.takeWhile (fun b => b ≠ 10)) = true
    · rw [if_pos hv]
      simp only [h, false_or]
      simp
      simpa only [ne_eq, decide_not] using hv
    · rw [if_neg hv]
      simp only [Bool.not_eq_true] at hv
      simp only [h, false_or]
      simp
      simpa only [ne_eq, decide_not] using hv

/-- C7 (amended): `Task::parse` errors exactly when the mandatory description
parse fails, i.e. exactly when the remainder after the three optional token
attempts is empty or its portion before the first line feed is not valid
UTF-8; the optional state/priority/date-compound failures never surface, and
no partial task exists on error (the result is `none`). -/
theorem task_error_iff (p : Parser) :
    (taskParse p).1 = none ↔
      ((afterOptTokens p).remain = [] ∨
        utf8Valid ((afterOptTokens p).remain.takeWhile (fun b => b ≠ 10)) = false) :=
  (taskParse_none_iff p).trans (descriptionParse_none_iff _)

/-! ## UTF-8 structure lemmas -/

theorem utf8ValidAux_irrel :
    ∀ (f1 : Nat) (s : List Nat) (f2 : Nat), s.length ≤ f1 → s.length ≤ f2 →
      utf8ValidAux f1 s = utf8ValidAux f2 s := by
  intro f1
  induction f1 with
  | zero =>
    intro s f2 h1 h2
    have hs : s = [] := List.eq_nil_of_length_eq_zero (by omega)
    subst hs
    cases f2 <;> rfl
  | succ f ih =>
    intro s f2 h1 h2
    rcases s with _ | ⟨b, rest⟩
    · cases f2 <;> rfl
    · rcases f2 with _ | f2
      · simp at h2
      · simp only [List.length_cons] at h1 h2
        simp only [utf8ValidAux]
        split_ifs
        · exact ih rest f2 (by omega) (by omega)
        · rcases rest with _ | ⟨c1, r⟩
          · rfl
          · simp only [List.length_cons] at h1 h2
            dsimp only
            rw [ih r f2 (by omega) (by omega)]
        · rcases rest with _ | ⟨c1, rest1⟩
          · rfl
          · rcases rest1 with _ | ⟨c2, r⟩
            · rfl
            · simp only [List.length_cons] at h1 h2
              dsimp only
              rw [ih r f2 (by omega) (by omega)]
        · rcases rest with _ | ⟨c1, rest1⟩
          · rfl
          · rcases rest1 with _ | ⟨c2, r⟩
            · rfl
            · simp only [List.length_cons] at h1 h2
              dsimp only
              rw [ih r f2 (by omega) (by omega)]
        · rcases rest with _ | ⟨c1, rest1⟩
          · rfl
          · rcases rest1 with _ | ⟨c2, r⟩
            · rfl
            · simp only [List.length_cons] at h1 h2
              dsimp only
              rw [ih r f2 (by omega) (by omega)]
        · rcases rest with _ | ⟨c1, rest1⟩
          · rfl
          · rcases rest1 with _ | ⟨c2, rest2⟩
            · rfl
            · rcases rest2 with _ | ⟨c3, r⟩
              · rfl
              · simp only [List.length_cons] at h1 h2
                dsimp only
                rw [ih r f2 (by omega) (by omega)]
        · rcases rest with _ | ⟨c1, rest1⟩
          · rfl
          · rcases rest1 with _ | ⟨c2, rest2⟩
            · rfl
            · rcases rest2 with _ | ⟨c3, r⟩
              · rfl
              · simp only [List.length_cons] at h1 h2
                dsimp only
                rw [ih r f2 (by omega) (by omega)]
        · rcases rest with _ | ⟨c1, rest1⟩
          · rfl
          · rcases rest1 with _ | ⟨c2, rest2⟩
            · rfl
            · rcases rest2 with _ | ⟨c3, r⟩
              · rfl
              · simp only [List.length_cons] at h1 h2
                dsimp only
                rw [ih r f2 (by omega) (by omega)]
        · rfl

/-- Any sufficiently large fuel computes `utf8Valid`. -/
theorem utf8ValidAux_eq (f : Nat) (s : List Nat) (h : s.length ≤ f) :
    utf8ValidAux f s = utf8Valid s :=
  utf8ValidAux_irrel f s s.length h le_rfl

/-- Chunk decomposition of a valid UTF-8 byte sequence: it is empty, or it
starts with a 1-4 byte character whose continuation bytes are all at least
128, whose tail is valid, and which can be re-prepended to any tail without
affecting the tail's validity. -/
theorem utf8Valid_cases (s : List Nat) (h : utf8Valid s = true) :
    s = [] ∨
    (∃ b r, s = b :: r ∧ b ≤ 127 ∧ utf8Valid r = true ∧
      (∀ t, utf8Valid (b :: t) = utf8Valid t)) ∨
    (∃ b c1 r, s = b :: c1 :: r ∧ 128 ≤ c1 ∧ utf8Valid r = true ∧
      (∀ t, utf8Valid (b :: c1 :: t) = utf8Valid t)) ∨
    (∃ b c1 c2 r, s = b :: c1 :: c2 :: r ∧ 128 ≤ c1 ∧ 128 ≤ c2 ∧
      utf8Valid r = true ∧ (∀ t, utf8Valid (b :: c1 :: c2 :: t) = utf8Valid t)) ∨
    (∃ b c1 c2 c3 r, s = b :: c1 :: c2 :: c3 :: r ∧ 128 ≤ c1 ∧ 128 ≤ c2 ∧
      128 ≤ c3 ∧ utf8Valid r = true ∧
      (∀ t, utf8Valid (b :: c1 :: c2 :: c3 :: t) = utf8Valid t)) := by
  rcases s with _ | ⟨b, rest⟩
  · exact Or.inl rfl
  · unfold utf8Valid at h
    simp only [List.length_cons, utf8ValidAux] at h
    split_ifs at h with h1 h2 h3 h4 h5 h6 h7 h8
    · refine Or.inr (Or.inl ⟨b, rest, rfl, h1, h, fun t => ?_⟩)
      unfold utf8Valid
      simp only [List.length_cons, utf8ValidAux]
      rw [if_pos h1]
    · rcases rest with _ | ⟨c1, r⟩
      · exact Bool.noConfusion h
      · dsimp only at h
        simp only [Bool.and_eq_true] at h
        obtain ⟨hcont, hv⟩ := h
        have hc1 : 128 ≤ c1 := by
          unfold isCont at hcont
          simp only [Bool.and_eq_true, decide_eq_true_eq] at hcont
          exact hcont.1
        have hv' : utf8Valid r = true := by
          rw [← utf8ValidAux_eq (r.length + 1) r (by omega)]
          exact hv
        refine Or.inr (Or.inr (Or.inl ⟨b, c1, r, rfl, hc1, hv', fun t => ?_⟩))
        unfold utf8Valid
        simp only [List.length_cons, utf8ValidAux]
        rw [if_neg h1, if_pos h2]
        rw [hcont, utf8ValidAux_eq (t.length + 1) t (by omega)]
        simp [utf8Valid]
    · rcases rest with _ | ⟨c1, rest1⟩
      · exact Bool.noConfusion h
      · rcases rest1 with _ | ⟨c2, r⟩
        · exact Bool.noConfusion h
        · dsimp only at h
          simp only [Bool.and_eq_true] at h
          obtain ⟨⟨hr1, hr2⟩, hv⟩ := h
          have hc1 : 128 ≤ c1 := by
            simp only [Bool.and_eq_true, decide_eq_true_eq] at hr1
            omega
          have hc2 : 128 ≤ c2 := by
            unfold isCont at hr2
            simp only [Bool.and_eq_true, decide_eq_true_eq] at hr2
            exact hr2.1
          have hv' : utf8Valid r = true := by
            rw [← utf8ValidAux_eq (r.length + 2) r (by omega)]
            exact hv
          refine Or.inr (Or.inr (Or.inr (Or.inl
            ⟨b, c1, c2, r, rfl, hc1, hc2, hv', fun t => ?_⟩)))
          unfold utf8Valid
          simp only [List.length_cons, utf8ValidAux]
          rw [if_neg h1, if_neg h2, if_pos h3]
          rw [utf8ValidAux_eq (t.length + 2) t (by omega)]
          simp [utf8Valid, hr1, hr2]
    · rcases rest with _ | ⟨c1, rest1⟩
      · exact Bool.noConfusion h
      · rcases rest1 with _ | ⟨c2, r⟩
        · exact Bool.noConfusion h
        · dsimp only at h
          simp only [Bool.and_eq_true] at h
          obtain ⟨⟨hr1, hr2⟩, hv⟩ := h
          have hc1 : 128 ≤ c1 := by
            unfold isCont at hr1
            simp only [Bool.and_eq_true, decide_eq_true_eq] at hr1
            exact hr1.1
          have hc2 : 128 ≤ c2 := by
            unfold isCont at hr2
            simp only [Bool.and_eq_true, decide_eq_true_eq] at hr2
            exact hr2.1
          have hv' : utf8Valid r = true := by
            rw [← utf8ValidAux_eq (r.length + 2) r (by omega)]
            exact hv
          refine Or.inr (Or.inr (Or.inr (Or.inl
            ⟨b, c1, c2, r, rfl, hc1, hc2, hv', fun t => ?_⟩)))
          unfold utf8Valid
          simp only [List.length_cons, utf8ValidAux]
          rw [if_neg h1, if_neg h2, if_neg h3, if_pos h4]
          rw [utf8ValidAux_eq (t.length + 2) t (by omega)]
          simp [utf8Valid, hr1, hr2]
    · rcases rest with _ | ⟨c1, rest1⟩
      · exact Bool.noConfusion h
      · rcases rest1 with _ | ⟨c2, r⟩
        · exact Bool.noConfusion h
        · dsimp only at h
          simp only [Bool.and_eq_true] at h
          obtain ⟨⟨hr1, hr2⟩, hv⟩ := h
          have hc1 : 128 ≤ c1 := by
            simp only [Bool.and_eq_true, decide_eq_true_eq] at hr1
            omega
          have hc2 : 128 ≤ c2 := by
            unfold isCont at hr2
            simp only [Bool.and_eq_true, decide_eq_true_eq] at hr2
            exact hr2.1
          have hv' : utf8Valid r = true := by
            rw [← utf8ValidAux_eq (r.length + 2) r (by omega)]
            exact hv
          refine Or.inr (Or.inr (Or.inr (Or.inl
            ⟨b, c1, c2, r, rfl, hc1, hc2, hv', fun t => ?_⟩)))
          unfold utf8Valid
          simp only [List.length_cons, utf8ValidAux]
          rw [if_neg h1, if_neg h2, if_neg h3, if_neg h4, if_pos h5]
          rw [utf8ValidAux_eq (t.length + 2) t (by omega)]
          simp [utf8Valid, hr1, hr2]
    · rcases rest with _ | ⟨c1, rest1⟩
      · exact Bool.noConfusion h
      · rcases rest1 with _ | ⟨c2, rest2⟩
        · exact Bool.noConfusion h
        · rcases rest2 with _ | ⟨c3, r⟩
          · exact Bool.noConfusion h
          · dsimp only at h
            simp only [Bool.and_eq_true] at h
            obtain ⟨⟨⟨hr1, hr2⟩, hr3⟩, hv⟩ := h
            have hc1 : 128 ≤ c1 := by
              simp only [Bool.and_eq_true, decide_eq_true_eq] at hr1
              omega
            have hc2 : 128 ≤ c2 := by
              unfold isCont at hr2
              simp only [Bool.and_eq_true, decide_eq_true_eq] at hr2
              exact hr2.1
            have hc3 : 128 ≤ c3 := by
              unfold isCont at hr3
              simp only [Bool.and_eq_true, decide_eq_true_eq] at hr3
              exact hr3.1
            have hv' : utf8Valid r = true := by
              rw [← utf8ValidAux_eq (r.length + 3) r (by omega)]
              exact hv
            refine Or.inr (Or.inr (Or.inr (Or.inr
              ⟨b, c1, c2, c3, r, rfl, hc1, hc2, hc3, hv', fun t => ?_⟩)))
            unfold utf8Valid
            simp only [List.length_cons, utf8ValidAux]
            rw [if_neg h1, if_neg h2, if_neg h3, if_neg h4, if_neg h5, if_pos h6]
            rw [utf8ValidAux_eq (t.length + 3) t (by omega)]
            simp [utf8Valid, hr1, hr2, hr3]
    · rcases rest with _ | ⟨c1, rest1⟩
      · exact Bool.noConfusion h
      · rcases rest1 with _ | ⟨c2, rest2⟩
        · exact Bool.noConfusion h
        · rcases rest2 with _ | ⟨c3, r⟩
          · exact Bool.noConfusion h
          · dsimp only at h
            simp only [Bool.and_eq_true] at h
            obtain ⟨⟨⟨hr1, hr2⟩, hr3⟩, hv⟩ := h
            have hc1 : 128 ≤ c1 := by
              unfold isCont at hr1
              simp only [Bool.and_eq_true, decide_eq_true_eq] at hr1
              exact hr1.1
            have hc2 : 128 ≤ c2 := by
              unfold isCont at hr2
              simp only [Bool.and_eq_true, decide_eq_true_eq] at hr2
              exact hr2.1
            have hc3 : 128 ≤ c3 := by
              unfold isCont at hr3
              simp only [Bool.and_eq_true, decide_eq_true_eq] at hr3
              exact hr3.1
            have hv' : utf8Valid r = true := by
              rw [← utf8ValidAux_eq (r.length + 3) r (by omega)]
              exact hv
            refine Or.inr (Or.inr (Or.inr (Or.inr
              ⟨b, c1, c2, c3, r, rfl, hc1, hc2, hc3, hv', fun t => ?_⟩)))
            unfold utf8Valid
            simp only [List.length_cons, utf8ValidAux]
            rw [if_neg h1, if_neg h2, if_neg h3, if_neg h4, if_neg h5, if_neg h6,
              if_pos h7]
            rw [utf8ValidAux_eq (t.length + 3) t (by omega)]
            simp [utf8Valid, hr1, hr2, hr3]
    · rcases rest with _ | ⟨c1, rest1⟩
      · exact Bool.noConfusion h
      · rcases rest1 with _ | ⟨c2, rest2⟩
        · exact Bool.noConfusion h
        · rcases rest2 with _ | ⟨c3, r⟩
          · exact Bool.noConfusion h
          · dsimp only at h
            simp only [Bool.and_eq_true] at h
            obtain ⟨⟨⟨hr1, hr2⟩, hr3⟩, hv⟩ := h
            have hc1 : 128 ≤ c1 := by
              simp only [Bool.and_eq_true, decide_eq_true_eq] at hr1
              omega
            have hc2 : 128 ≤ c2 := by
              unfold isCont at hr2
              simp only [Bool.and_eq_true, decide_eq_true_eq] at hr2
              exact hr2.1
            have hc3 : 128 ≤ c3 := by
              unfold isCont at hr3
              simp only [Bool.and_eq_true, decide_eq_true_eq] at hr3
              exact hr3.1
            have hv' : utf8Valid r = true := by
              rw [← utf8ValidAux_eq (r.length + 3) r (by omega)]
              exact hv
            refine Or.inr (Or.inr (Or.inr (Or.inr
              ⟨b, c1, c2, c3, r, rfl, hc1, hc2, hc3, hv', fun t => ?_⟩)))
            unfold utf8Valid
            simp only [List.length_cons, utf8ValidAux]
            rw [if_neg h1, if_neg h2, if_neg h3, if_neg h4, if_neg h5, if_neg h6,
              if_neg h7, if_pos h8]
            rw [utf8ValidAux_eq (t.length + 3) t (by omega)]
            simp [utf8Valid, hr1, hr2, hr3]

/-- An ASCII byte in front never affects validity of the tail. -/
theorem utf8Valid_cons_ascii (x : Nat) (r : List Nat) (hx : x ≤ 127) :
    utf8Valid (x :: r) = utf8Valid r := by
  unfold utf8Valid
  simp only [List.length_cons, utf8ValidAux]
  rw [if_pos hx]

theorem utf8Valid_prefix_aux :
    ∀ (n : Nat) (a b : List Nat), a.length ≤ n →
      utf8Valid (a ++ 10 :: b) = true → (10 : Nat) ∉ a → utf8Valid a = true := by
  intro n
  induction n with
  | zero =>
    intro a b hl _ _
    have ha : a = [] := List.eq_nil_of_length_eq_zero (by omega)
    subst ha
    rfl
  | succ n ih =>
    intro a b hl hv hna
    rcases utf8Valid_cases _ hv with hnil |
      ⟨b0, r, heq, _, hvr, hreb⟩ |
      ⟨b0, c1, r, heq, hc1, hvr, hreb⟩ |
      ⟨b0, c1, c2, r, heq, hc1, hc2, hvr, hreb⟩ |
      ⟨b0, c1, c2, c3, r, heq, hc1, hc2, hc3, hvr, hreb⟩
    · exact absurd hnil (by simp)
    · rcases a with _ | ⟨a0, a'⟩
      · rfl
      · simp only [List.cons_append, List.cons.injEq] at heq
        obtain ⟨h1, h2⟩ := heq
        subst h1
        have hv' : utf8Valid a' = true := by
          refine ih a' b (by simp at hl; omega) ?_ ?_
          · rw [h2]
            exact hvr
          · intro hm
            exact hna (List.mem_cons_of_mem _ hm)
        rw [hreb a']
        exact hv'
    · rcases a with _ | ⟨a0, a'⟩
      · rfl
      · rcases a' with _ | ⟨a1, a''⟩
        · simp only [List.cons_append, List.nil_append, List.cons.injEq] at heq
          omega
        · simp only [List.cons_append, List.cons.injEq] at heq
          obtain ⟨h1, h2, h3⟩ := heq
          subst h1
          subst h2
          have hv' : utf8Valid a'' = true := by
            refine ih a'' b (by simp at hl; omega) ?_ ?_
            · rw [h3]
              exact hvr
            · intro hm
              exact hna (by simp [hm])
          rw [hreb a'']
          exact hv'
    · rcases a with _ | ⟨a0, a'⟩
      · rfl
      · rcases a' with _ | ⟨a1, a''⟩
        · simp only [List.cons_append, List.nil_append, List.cons.injEq] at heq
          omega
        · rcases a'' with _ | ⟨a2, a3⟩
          · simp only [List.cons_append, List.nil_append, List.cons.injEq] at heq
            omega
          · simp only [List.cons_append, List.cons.injEq] at heq
            obtain ⟨h1, h2, h3, h4⟩ := heq
            subst h1
            subst h2
            subst h3
            have hv' : utf8Valid a3 = true := by
              refine ih a3 b (by simp at hl; omega) ?_ ?_
              · rw [h4]
                exact hvr
              · intro hm
                exact hna (by simp [hm])
            rw [hreb a3]
            exact hv'
    · rcases a with _ | ⟨a0, a'⟩
      · rfl
      · rcases a' with _ | ⟨a1, a''⟩
        · simp only [List.cons_append, List.nil_append, List.cons.injEq] at heq
          omega
        · rcases a'' with _ | ⟨a2, a3⟩
          · simp only [List.cons_append, List.nil_append, List.cons.injEq] at heq
            omega
          · rcases a3 with _ | ⟨a4, a5⟩
            · simp only [List.cons_append, List.nil_append, List.cons.injEq] at heq
              omega
            · simp only [List.cons_append, List.cons.injEq] at heq
              obtain ⟨h1, h2, h3, h4, h5⟩ := heq
              subst h1
              subst h2
              subst h3
              subst h4
              have hv' : utf8Valid a5 = true := by
                refine ih a5 b (by simp at hl; omega) ?_ ?_
                · rw [h5]
                  exact hvr
                · intro hm
                  exact hna (by simp [hm])
              rw [hreb a5]
              exact hv'

/-- Validity of a valid sequence's prefix up to (excluding) a line feed. -/
theorem utf8Valid_prefix (a b : List Nat) (hv : utf8Valid (a ++ 10 :: b) = true)
    (hna : (10 : Nat) ∉ a) : utf8Valid a = true :=
  utf8Valid_prefix_aux a.length a b le_rfl hv hna

/-- `takeWhile`/`dropWhile` on a list split at the first failing element. -/
theorem takeWhile_append_stop {pred : Nat → Bool} :
    ∀ {a : List Nat} {x : Nat} {b : List Nat}, (∀ y ∈ a, pred y = true) →
      pred x = false →
      (a ++ x :: b).takeWhile pred = a ∧ (a ++ x :: b).dropWhile pred = x :: b := by
  intro a
  induction a with
  | nil =>
    intro x b _ hx
    simp [List.takeWhile_cons, List.dropWhile_cons, hx]
  | cons a0 a' ih =>
    intro x b ha hx
    have h0 : pred a0 = true := ha a0 (by simp)
    have hrest : ∀ y ∈ a', pred y = true := fun y hy => ha y (by simp [hy])
    obtain ⟨ih1, ih2⟩ := @ih x b hrest hx
    simp only [List.cons_append, List.takeWhile_cons, List.dropWhile_cons, h0,
      if_true, ih1, ih2]
    simp

/-- `Description::parse` on a remainder with a line feed: everything before
the first line feed becomes the description, the line feed is consumed, and
the bytes after it remain. -/
theorem descriptionParse_split {p : Parser} {a b2 : List Nat}
    (hsplit : p.remain = a ++ 10 :: b2) (hna : (10 : Nat) ∉ a)
    (hva : utf8Valid a = true) :
    (descriptionParse p).1 = some (Description.new a) ∧
      (descriptionParse p).2.remain = b2 := by
  have hne : p.remain ≠ [] := by
    rw [hsplit]
    simp
  obtain ⟨h1, h2⟩ := parseUntil_pos p 10 hne
  have hpred : ∀ y ∈ a, (fun b => decide (b ≠ 10)) y = true := by
    intro y hy
    simp only [decide_eq_true_eq]
    intro hc
    exact hna (hc ▸ hy)
  have hx : (fun b => decide (b ≠ 10)) 10 = false := by simp
  obtain ⟨htw, hdw⟩ := @takeWhile_append_stop (fun b => decide (b ≠ 10)) a 10 b2 hpred hx
  rw [hsplit, htw] at h1
  have hrem : (p.consumeWhile (fun b => b ≠ 10)).remain = 10 :: b2 := by
    rw [consumeWhile_remain, hsplit]
    exact hdw
  unfold descriptionParse
  rcases hpu : Parser.parseUntil p 10 with ⟨o, p'⟩
  rw [hpu] at h1 h2
  dsimp only at h1 h2
  subst h1
  subst h2
  dsimp only
  rw [if_pos hva]
  rw [parseU8_cons hrem]
  exact ⟨rfl, (advance_one hrem).2.2⟩

/-! ## UTF-8 validity of the remainder is preserved by the token parsers -/

theorem isWs_ascii {b : Nat} (h : isWs b = true) : b ≤ 127 := by
  unfold isWs at h
  simp only [Bool.or_eq_true, decide_eq_true_eq] at h
  omega

theorem utf8_expectU8 {e : Nat} (he : e ≤ 127) (p : Parser)
    (h : utf8Valid p.remain = true) :
    utf8Valid (Parser.expectU8 p e).2.remain = true := by
  rcases hr : p.remain with _ | ⟨b, r⟩
  · rw [expectU8_nil hr]
    exact h
  · by_cases hb : b = e
    · subst hb
      rw [expectU8_pos hr]
      dsimp only
      rw [(advance_one hr).2.2]
      rw [hr, utf8Valid_cons_ascii b r (by omega)] at h
      exact h
    · rw [expectU8_neg hr hb]
      exact h

theorem utf8_parseDigit (p : Parser) (h : utf8Valid p.remain = true) :
    utf8Valid (Parser.parseDigit p).2.remain = true := by
  rcases hr : p.remain with _ | ⟨b, r⟩
  · rw [parseDigit_nil hr]
    exact h
  · by_cases hb : 48 ≤ b ∧ b ≤ 57
    · rw [parseDigit_pos hr hb]
      dsimp only
      rw [(advance_one hr).2.2]
      rw [hr, utf8Valid_cons_ascii b r (by omega)] at h
      exact h
    · rw [parseDigit_neg hr hb]
      exact h

theorem utf8_parseAlphaUpper (p : Parser) (h : utf8Valid p.remain = true) :
    utf8Valid (Parser.parseAlphaUpper p).2.remain = true := by
  rcases hr : p.remain with _ | ⟨b, r⟩
  · rw [parseAlphaUpper_nil hr]
    exact h
  · by_cases hb : 65 ≤ b ∧ b ≤ 90
    · rw [parseAlphaUpper_pos hr hb]
      dsimp only
      rw [(advance_one hr).2.2]
      rw [hr, utf8Valid_cons_ascii b r (by omega)] at h
      exact h
    · rw [parseAlphaUpper_neg hr hb]
      exact h

theorem utf8_expectWhitespace (p : Parser) (h : utf8Valid p.remain = true) :
    utf8Valid (Parser.expectWhitespace p).2.remain = true := by
  rcases hr : p.remain with _ | ⟨b, r⟩
  · rw [expectWhitespace_nil hr]
    exact h
  · rcases hb : isWs b
    · rw [expectWhitespace_neg hr hb]
      exact h
    · rw [expectWhitespace_pos hr hb]
      dsimp only
      rw [(advance_one hr).2.2]
      rw [hr, utf8Valid_cons_ascii b r (isWs_ascii hb)] at h
      exact h

theorem utf8_expectSlice_close (p : Parser) (h : utf8Valid p.remain = true) :
    utf8Valid (Parser.expectSlice p [41, 32]).2.remain = true := by
  rcases hr : p.remain with _ | ⟨x, rest⟩
  · rw [expectSlice_short (by decide) (by rw [hr]; simp)]
    exact h
  · rcases rest with _ | ⟨y, r⟩
    · rw [expectSlice_short (by decide) (by rw [hr]; simp)]
      exact h
    · by_cases hxy : x = 41 ∧ y = 32
      · obtain ⟨hx, hy⟩ := hxy
        subst hx
        subst hy
        rw [expectSlice_pos (by decide)
          (show p.remain = [41, 32] ++ r by rw [hr]; rfl)]
        show utf8Valid (Cursor.advance p 2).remain = true
        rw [(advance_spec (c := p) (n := 2) (by decide) (by rw [hr]; simp)).2.2]
        rw [hr]
        rw [hr, utf8Valid_cons_ascii 41 _ (by omega),
          utf8Valid_cons_ascii 32 _ (by omega)] at h
        exact h
      · rw [expectSlice_neg (by decide) (by rw [hr]; simp)
          (by
            rw [hr]
            intro hc
            simp only [List.take, List.cons.injEq] at hc
            exact hxy ⟨hc.1, hc.2.1⟩)]
        exact h

theorem utf8_parseOpt {α : Type} {f : Parser → Option α × Parser}
    (hf : ∀ q, utf8Valid (Cursor.remain q) = true →
      utf8Valid ((f q).2).remain = true)
    (p : Parser) (h : utf8Valid p.remain = true) :
    utf8Valid ((parseOpt f p).2).remain = true := by
  unfold parseOpt
  rcases hfp : f p with ⟨_ | x, p'⟩
  · exact h
  · have := hf p h
    rw [hfp] at this
    exact this

theorem utf8_stateParse (p : Parser) (h : utf8Valid p.remain = true) :
    utf8Valid ((stateParse p).2).remain = true := by
  unfold stateParse
  rcases he : p.expectU8 120 with ⟨o, p'⟩
  have := utf8_expectU8 (by omega : (120 : Nat) ≤ 127) p h
  rw [he] at this
  rcases o with _ | u <;> exact this

theorem utf8_priorityParse (p : Parser) (h : utf8Valid p.remain = true) :
    utf8Valid ((priorityParse p).2).remain = true := by
  unfold priorityParse
  rcases e1 : p.expectU8 40 with ⟨o1, p1⟩
  have v1 : utf8Valid p1.remain = true := by
    have := utf8_expectU8 (by omega : (40 : Nat) ≤ 127) p h
    rw [e1] at this
    exact this
  rcases o1 with _ | u1
  · exact v1
  · dsimp only
    rcases e2 : p1.parseAlphaUpper with ⟨o2, p2⟩
    have v2 : utf8Valid p2.remain = true := by
      have := utf8_parseAlphaUpper p1 v1
      rw [e2] at this
      exact this
    rcases o2 with _ | b2
    · exact v1
    · dsimp only
      rcases e3 : Priority.tryFrom b2 with _ | pr
      · exact v2
      · dsimp only
        rcases e4 : p2.expectSlice [41, 32] with ⟨o4, p4⟩
        have v4 : utf8Valid p4.remain = true := by
          have := utf8_expectSlice_close p2 v2
          rw [e4] at this
          exact this
        rcases o4 with _ | s4 <;> exact v4

theorem utf8_dateParse (p : Parser) (h : utf8Valid p.remain = true) :
    utf8Valid ((dateParse p).2).remain = true := by
  unfold dateParse
  rcases e1 : p.parseDigit with ⟨o1, p1⟩
  have v1 : utf8Valid p1.remain = true := by
    have := utf8_parseDigit p h
    rw [e1] at this
    exact this
  rcases o1 with _ | y1
  · exact v1
  · dsimp only
    rcases e2 : p1.parseDigit with ⟨o2, p2⟩
    have v2 : utf8Valid p2.remain = true := by
      have := utf8_parseDigit p1 v1
      rw [e2] at this
      exact this
    rcases o2 with _ | y2
    · exact v2
    · dsimp only
      rcases e3 : p2.parseDigit with ⟨o3, p3⟩
      have v3 : utf8Valid p3.remain = true := by
        have := utf8_parseDigit p2 v2
        rw [e3] at this
        exact this
      rcases o3 with _ | y3
      · exact v3
      · dsimp only
        rcases e4 : p3.parseDigit with ⟨o4, p4⟩
        have v4 : utf8Valid p4.remain = true := by
          have := utf8_parseDigit p3 v3
          rw [e4] at this
          exact this
        rcases o4 with _ | y4
        · exact v4
        · dsimp only
          rcases e5 : p4.expectU8 45 with ⟨o5, p5⟩
          have v5 : utf8Valid p5.remain = true := by
            have := utf8_expectU8 (by omega : (45 : Nat) ≤ 127) p4 v4
            rw [e5] at this
            exact this
          rcases o5 with _ | u5
          · exact v5
          · dsimp only
            rcases e6 : p5.parseDigit with ⟨o6, p6⟩
            have v6 : utf8Valid p6.remain = true := by
              have := utf8_parseDigit p5 v5
              rw [e6] at this
              exact this
            rcases o6 with _ | m1
            · exact v6
            · dsimp only
              rcases e7 : p6.parseDigit with ⟨o7, p7⟩
              have v7 : utf8Valid p7.remain = true := by
                have := utf8_parseDigit p6 v6
                rw [e7] at this
                exact this
              rcases o7 with _ | m2
              · exact v7
              · dsimp only
                rcases e8 : p7.expectU8 45 with ⟨o8, p8⟩
                have v8 : utf8Valid p8.remain = true := by
                  have := utf8_expectU8 (by omega : (45 : Nat) ≤ 127) p7 v7
                  rw [e8] at this
                  exact this
                rcases o8 with _ | u8
                · exact v8
                · dsimp only
                  rcases e9 : p8.parseDigit with ⟨o9, p9⟩
                  have v9 : utf8Valid p9.remain = true := by
                    have := utf8_parseDigit p8 v8
                    rw [e9] at this
                    exact this
                  rcases o9 with _ | d1
                  · exact v9
                  · dsimp only
                    rcases e10 : p9.parseDigit with ⟨o10, p10⟩
                    have v10 : utf8Valid p10.remain = true := by
                      have := utf8_parseDigit p9 v9
                      rw [e10] at this
                      exact this
                    rcases o10 with _ | d2
                    · exact v10
                    · dsimp only
                      rcases e11 : Date.fromYmdOpt
                        ((y1 : Int) * 1000 + (y2 : Int) * 100 + (y3 : Int) * 10 + (y4 : Int))
                        (m1 * 10 + m2) (d1 * 10 + d2) with _ | d <;>
                        simp only [e11] <;> exact v10

theorem utf8_dateCompoundParse (p : Parser) (h : utf8Valid p.remain = true) :
    utf8Valid ((dateCompoundParse p).2).remain = true := by
  unfold dateCompoundParse
  rcases h1 : parseOpt dateParse p with ⟨_ | d1, p1⟩
  · exact h
  · have v1 : utf8Valid p1.remain = true := by
      have := utf8_parseOpt utf8_dateParse p h
      rw [h1] at this
      exact this
    dsimp only
    rcases h2 : p1.expectWhitespace with ⟨o2, q2⟩
    have v2 : utf8Valid q2.remain = true := by
      have := utf8_expectWhitespace p1 v1
      rw [h2] at this
      exact this
    rcases o2 with _ | u2
    · dsimp only
      exact v1
    · dsimp only
      rcases h3 : parseOpt dateParse q2 with ⟨_ | d2, q3⟩
      · dsimp only
        exact v1
      · have v3 : utf8Valid q3.remain = true := by
          have := utf8_parseOpt utf8_dateParse q2 v2
          rw [h3] at this
          exact this
        dsimp only
        by_cases hc : ((Parser.peek q3).map isWs).getD true = true
        · simp only [hc, if_true]
          exact v3
        · simp only [hc, if_false]
          exact v1

theorem utf8_tryParse {α : Type} {f : Parser → Option α × Parser}
    (hf : ∀ q, utf8Valid (Cursor.remain q) = true →
      utf8Valid ((f q).2).remain = true)
    (p : Parser) (h : utf8Valid p.remain = true) :
    utf8Valid ((tryParse f p).2).remain = true := by
  unfold tryParse
  rcases hpo : parseOpt f p with ⟨_ | x, pc⟩
  · exact h
  · have vpc : utf8Valid pc.remain = true := by
      have := utf8_parseOpt hf p h
      rw [hpo] at this
      exact this
    dsimp only
    by_cases heof : pc.isEof = true
    · rw [if_pos heof]
      exact vpc
    · rw [if_neg heof]
      rcases hw : pc.expectWhitespace with ⟨ow, pw⟩
      have vw : utf8Valid pw.remain = true := by
        have := utf8_expectWhitespace pc vpc
        rw [hw] at this
        exact this
      rcases ow with _ | uw
      · exact h
      · exact vw

/-- The remainder at the description step of `Task::parse` is valid UTF-8
whenever the input is. -/
theorem utf8_afterOptTokens (p : Parser) (h : utf8Valid p.remain = true) :
    utf8Valid (afterOptTokens p).remain = true :=
  utf8_tryParse utf8_dateCompoundParse _
    (utf8_tryParse utf8_priorityParse _ (utf8_tryParse utf8_stateParse _ h))

theorem dropWhile_cons_of_mem {l : List Nat} (hm : (10 : Nat) ∈ l) :
    ∃ t, l.dropWhile (fun b => decide (b ≠ 10)) = 10 :: t := by
  induction l with
  | nil => simp at hm
  | cons x xs ih =>
    by_cases hx : x = 10
    · subst hx
      exact ⟨xs, by simp [List.dropWhile_cons]⟩
    · have hm' : (10 : Nat) ∈ xs := by
        rcases List.mem_cons.mp hm with h | h
        · exact absurd h.symm hx
        · exact h
      obtain ⟨t, ht⟩ := ih hm'
      refine ⟨t, ?_⟩
      rw [List.dropWhile_cons, if_pos (by simp [hx]), ht]

/-- C10: whenever the remainder at the description step contains a line feed,
`Description::parse` succeeds with exactly the bytes before the first line
feed as the description text and consumes the line feed; a remainder
beginning with a line feed yields a zero-length description; an empty
remainder is an error; and at the task level, `Task::from_str` on a valid
UTF-8 input whose remainder after the optional tokens contains a line feed
succeeds, silently ignoring all bytes after the line feed. -/
theorem newline_truncation :
    (∀ (p : Parser) (a b2 : List Nat), utf8Valid p.remain = true →
        p.remain = a ++ 10 :: b2 → (10 : Nat) ∉ a →
        (descriptionParse p).1 = some (Description.new a) ∧
          (descriptionParse p).2.remain = b2) ∧
    (∀ (p : Parser) (b2 : List Nat), p.remain = 10 :: b2 →
        (descriptionParse p).1 = some (Description.new []) ∧
          (descriptionParse p).2.remain = b2) ∧
    (∀ p : Parser, p.remain = [] → descriptionParse p = (none, p)) ∧
    (∀ s : List Nat, utf8Valid s = true →
        (10 : Nat) ∈ (afterOptTokens (Parser.new s)).remain →
        ∃ t, taskFromStr s = some t ∧
          t.description = Description.new
            ((afterOptTokens (Parser.new s)).remain.takeWhile
              (fun b => b ≠ 10))) := by
  have part1 : ∀ (p : Parser) (a b2 : List Nat), utf8Valid p.remain = true →
      p.remain = a ++ 10 :: b2 → (10 : Nat) ∉ a →
      (descriptionParse p).1 = some (Description.new a) ∧
        (descriptionParse p).2.remain = b2 := by
    intro p a b2 hv hsplit hna
    have hva : utf8Valid a = true := by
      rw [hsplit] at hv
      exact utf8Valid_prefix a b2 hv hna
    exact descriptionParse_split hsplit hna hva
  refine ⟨part1, ?_, descriptionParse_nil, ?_⟩
  · intro p b2 hsplit
    exact descriptionParse_split (a := []) (by simpa using hsplit) (by simp) rfl
  · intro s hv hm
    have hvrem : utf8Valid (afterOptTokens (Parser.new s)).remain = true :=
      utf8_afterOptTokens (Parser.new s) hv
    set X := afterOptTokens (Parser.new s) with hX
    obtain ⟨t2, ht2⟩ := dropWhile_cons_of_mem hm
    have hsplit : X.remain
        = X.remain.takeWhile (fun b => decide (b ≠ 10)) ++ 10 :: t2 := by
      conv_lhs => rw [← List.takeWhile_append_dropWhile
        (fun b => decide (b ≠ 10)) X.remain]
      rw [ht2]
    have hna : (10 : Nat) ∉ X.remain.takeWhile (fun b => decide (b ≠ 10)) := by
      intro hmem
      have := List.mem_takeWhile_imp hmem
      simp at this
    obtain ⟨hd1, _⟩ := part1 X _ t2 hvrem hsplit hna
    have hpair : descriptionParse X
        = (some (Description.new
            (X.remain.takeWhile (fun b => decide (b ≠ 10)))),
           (descriptionParse X).2) := by
      conv_lhs => rw [← @Prod.mk.eta _ _ (descriptionParse X)]
      rw [hd1]
    unfold taskFromStr
    rw [taskParse_def, ← hX, hpair]
    dsimp only
    refine ⟨_, rfl, ?_⟩
    with_reducible rfl

theorem newline_truncation_witness :
    ((descriptionParse (Parser.new [97, 10, 98])).1
        = some (Description.new [97]) ∧
      (descriptionParse (Parser.new [97, 10, 98])).2.remain = [98]) ∧
    (∃ t, taskFromStr [97, 10, 98] = some t ∧
      t.description = Description.new
        ((afterOptTokens (Parser.new [97, 10, 98])).remain.takeWhile
          (fun b => b ≠ 10))) :=
  ⟨newline_truncation.1 (Parser.new [97, 10, 98]) [97] [98]
      (by decide) (by decide) (by decide),
    newline_truncation.2.2.2 [97, 10, 98] (by decide) (by decide)⟩

/-! ## Decimal digit rendering -/

theorem natDigitsAux_fuel (n : Nat) : ∀ f1 f2, n < f1 → n < f2 →
    natDigitsAux f1 n = natDigitsAux f2 n := by
  induction n using Nat.strong_induction_on with
  | _ n ih =>
    intro f1 f2 h1 h2
    cases f1 with
    | zero => omega
    | succ g =>
      cases f2 with
      | zero => omega
      | succ k =>
        simp only [natDigitsAux]
        by_cases hn : n < 10
        · rw [if_pos hn, if_pos hn]
        · rw [if_neg hn, if_neg hn]
          rw [ih (n / 10) (by omega) g k (by omega) (by omega)]

theorem natDigitsAux_eval (f n : Nat) (h : n < f) :
    natDigitsAux f n = natDigits n :=
  natDigitsAux_fuel n f (n + 1) h (Nat.lt_succ_self n)

theorem natDigits_one {n : Nat} (hn : n < 10) : natDigits n = [48 + n] := by
  unfold natDigits
  simp only [natDigitsAux]
  rw [if_pos hn]

theorem natDigits_two {n : Nat} (h10 : 10 ≤ n) (h99 : n ≤ 99) :
    natDigits n = [48 + n / 10, 48 + n % 10] := by
  unfold natDigits
  simp only [natDigitsAux]
  rw [if_neg (by omega), natDigitsAux_eval n (n / 10) (by omega),
    natDigits_one (by omega)]
  rfl

theorem natDigits_three {n : Nat} (hlo : 100 ≤ n) (hhi : n ≤ 999) :
    natDigits n = [48 + n / 100, 48 + n / 10 % 10, 48 + n % 10] := by
  unfold natDigits
  simp only [natDigitsAux]
  rw [if_neg (by omega), natDigitsAux_eval n (n / 10) (by omega),
    natDigits_two (by omega) (by omega)]
  have e1 : n / 10 / 10 = n / 100 := by omega
  have e2 : n / 10 % 10 = n / 10 % 10 := rfl
  rw [e1]
  rfl

theorem natDigits_four {n : Nat} (hlo : 1000 ≤ n) (hhi : n ≤ 9999) :
    natDigits n = [48 + n / 1000, 48 + n / 100 % 10, 48 + n / 10 % 10,
      48 + n % 10] := by
  unfold natDigits
  simp only [natDigitsAux]
  rw [if_neg (by omega), natDigitsAux_eval n (n / 10) (by omega),
    natDigits_three (by omega) (by omega)]
  have e1 : n / 10 / 100 = n / 1000 := by omega
  have e2 : n / 10 / 10 % 10 = n / 100 % 10 := by omega
  rw [e1, e2]
  rfl

theorem padDigits_two {n : Nat} (h : n ≤ 99) :
    padDigits 2 n = [48 + n / 10, 48 + n % 10] := by
  by_cases hn : n < 10
  · unfold padDigits
    rw [natDigits_one hn]
    show [48, 48 + n] = [48 + n / 10, 48 + n % 10]
    simp only [List.cons.injEq, and_true, eq_self_iff_true, true_and]
    omega
  · unfold padDigits
    rw [natDigits_two (by omega) h]
    simp

theorem padDigits_four {n : Nat} (h : n ≤ 9999) :
    padDigits 4 n = [48 + n / 1000, 48 + n / 100 % 10, 48 + n / 10 % 10,
      48 + n % 10] := by
  unfold padDigits
  by_cases h1 : n < 10
  · rw [natDigits_one h1]
    show [48, 48, 48, 48 + n] = _
    simp only [List.cons.injEq, and_true, eq_self_iff_true, true_and]
    omega
  · by_cases h2 : n ≤ 99
    · rw [natDigits_two (by omega) h2]
      show [48, 48, 48 + n / 10, 48 + n % 10] = _
      simp only [List.cons.injEq, and_true, eq_self_iff_true, true_and]
      omega
    · by_cases h3 : n ≤ 999
      · rw [natDigits_three (by omega) h3]
        show [48, 48 + n / 100, 48 + n / 10 % 10, 48 + n % 10] = _
        simp only [List.cons.injEq, and_true, eq_self_iff_true, true_and]
        omega
      · rw [natDigits_four (by omega) h]
        simp

theorem dateDisplay_explicit {dt : Date} (hok : dateOK dt) :
    dateDisplay dt = [48 + dt.year.toNat / 1000, 48 + dt.year.toNat / 100 % 10,
      48 + dt.year.toNat / 10 % 10, 48 + dt.year.toNat % 10, 45,
      48 + dt.month / 10, 48 + dt.month % 10, 45,
      48 + dt.day / 10, 48 + dt.day % 10] := by
  obtain ⟨h0, h9999, hm1, hm12, hd1, hd31⟩ := hok
  have hy : dt.year.toNat ≤ 9999 := by omega
  unfold dateDisplay yearDigits
  rw [if_neg (by omega), padDigits_four hy, padDigits_two (by omega),
    padDigits_two (by omega)]
  rfl

theorem parseOpt_of_none {α : Type} {f : Parser → Option α × Parser}
    {p : Parser} (h : (f p).1 = none) : parseOpt f p = (none, p) := by
  unfold parseOpt
  rcases hf : f p with ⟨_ | x, p'⟩
  · rfl
  · rw [hf] at h
    exact absurd h (by simp)

theorem Description.raw_new (s : List Nat) : (Description.new s).raw = s := by
  unfold Description.new
  rcases descriptionIndex s with ⟨ps, cs, us⟩
  rfl

theorem dateParse_none_head {p : Parser} {b : Nat} {r : List Nat}
    (h : p.remain = b :: r) (hb : ¬(48 ≤ b ∧ b ≤ 57)) :
    (dateParse p).1 = none := by
  unfold dateParse
  rw [parseDigit_neg h hb]

theorem dateParse_display {dt : Date} (hok : dateOK dt) {p : Parser}
    {r : List Nat} (h : p.remain = dateDisplay dt ++ r) :
    ∃ q, dateParse p = (some dt, q) ∧ q.remain = r := by
  obtain ⟨h0, h9999, hm1, hm12, hd1, hd31⟩ := hok
  rw [dateDisplay_explicit ⟨h0, h9999, hm1, hm12, hd1, hd31⟩] at h
  simp only [List.cons_append, List.nil_append] at h
  have e1 := parseDigit_pos h ⟨by omega, by omega⟩
  have r1 := (advance_one h).2.2
  have e2 := parseDigit_pos r1 ⟨by omega, by omega⟩
  have r2 := (advance_one r1).2.2
  have e3 := parseDigit_pos r2 ⟨by omega, by omega⟩
  have r3 := (advance_one r2).2.2
  have e4 := parseDigit_pos r3 ⟨by omega, by omega⟩
  have r4 := (advance_one r3).2.2
  have e5 := expectU8_pos r4
  have r5 := (advance_one r4).2.2
  have e6 := parseDigit_pos r5 ⟨by omega, by omega⟩
  have r6 := (advance_one r5).2.2
  have e7 := parseDigit_pos r6 ⟨by omega, by omega⟩
  have r7 := (advance_one r6).2.2
  have e8 := expectU8_pos r7
  have r8 := (advance_one r7).2.2
  have e9 := parseDigit_pos r8 ⟨by omega, by omega⟩
  have r9 := (advance_one r8).2.2
  have e10 := parseDigit_pos r9 ⟨by omega, by omega⟩
  have r10 := (advance_one r9).2.2
  unfold dateParse
  rw [e1]
  dsimp only
  rw [e2]
  dsimp only
  rw [e3]
  dsimp only
  rw [e4]
  dsimp only
  rw [e5]
  dsimp only
  rw [e6]
  dsimp only
  rw [e7]
  dsimp only
  rw [e8]
  dsimp only
  rw [e9]
  dsimp only
  rw [e10]
  dsimp only
  simp only [Nat.add_sub_cancel_left]
  have hyear : ((dt.year.toNat / 1000 : Nat) : Int) * 1000
      + ((dt.year.toNat / 100 % 10 : Nat) : Int) * 100
      + ((dt.year.toNat / 10 % 10 : Nat) : Int) * 10
      + ((dt.year.toNat % 10 : Nat) : Int) = dt.year := by
    omega
  have hmonth : dt.month / 10 * 10 + dt.month % 10 = dt.month := by omega
  have hday : dt.day / 10 * 10 + dt.day % 10 = dt.day := by omega
  rw [hyear, hmonth, hday]
  have hfy : Date.fromYmdOpt dt.year dt.month dt.day = some dt := by
    unfold Date.fromYmdOpt
    rw [if_pos ⟨hm1, hm12, hd1, hd31⟩]
  rw [hfy]
  exact ⟨_, rfl, r10⟩

theorem dateCompoundParse_display {c : DateCompound} (hok : dateCompoundOK c)
    {p : Parser} {b : Nat} {d' : List Nat}
    (h : p.remain = dateCompoundDisplay c ++ 32 :: b :: d')
    (hb : ¬(48 ≤ b ∧ b ≤ 57)) :
    ∃ q, dateCompoundParse p = (some c, q) ∧ q.remain = 32 :: b :: d' := by
  cases c with
  | created c1 =>
    have hok1 : dateOK c1 := hok
    rw [dateCompoundDisplay] at h
    obtain ⟨q1, hdp, hq1⟩ := dateParse_display hok1 h
    unfold dateCompoundParse
    rw [(parseOpt_some_iff dateParse p q1 c1).mpr hdp]
    dsimp only
    rw [expectWhitespace_pos hq1 (by decide)]
    dsimp only
    have h2 : (q1.advance 1).remain = b :: d' := (advance_one hq1).2.2
    rw [parseOpt_of_none (dateParse_none_head h2 hb)]
    dsimp only
    exact ⟨q1, rfl, hq1⟩
  | completed cr cm =>
    obtain ⟨hokr, hokm⟩ : dateOK cr ∧ dateOK cm := hok
    rw [dateCompoundDisplay] at h
    have h' : p.remain = dateDisplay cm ++ 32 :: (dateDisplay cr ++ 32 :: b :: d') := by
      rw [h]
      simp
    obtain ⟨q1, hdp, hq1⟩ := dateParse_display hokm h'
    unfold dateCompoundParse
    rw [(parseOpt_some_iff dateParse p q1 cm).mpr hdp]
    dsimp only
    rw [expectWhitespace_pos hq1 (by decide)]
    dsimp only
    have h2 : (q1.advance 1).remain = dateDisplay cr ++ 32 :: b :: d' :=
      (advance_one hq1).2.2
    obtain ⟨q2, hdp2, hq2⟩ := dateParse_display hokr h2
    rw [(parseOpt_some_iff dateParse (q1.advance 1) q2 cr).mpr hdp2]
    dsimp only
    have hpk : Parser.peek q2 = some 32 := by
      rw [peek_eq, hq2]
      rfl
    rw [hpk]
    simp only [Option.map_some', Option.getD_some]
    rw [if_pos (by decide)]
    exact ⟨q2, rfl, hq2⟩

theorem tryParse_state_done {p : Parser} {r : List Nat}
    (h : p.remain = 120 :: 32 :: r) :
    ∃ q, tryParse stateParse p = (some State.Done, q) ∧ q.remain = r := by
  have hx := expectU8_pos h
  have h1 : (p.advance 1).remain = 32 :: r := (advance_one h).2.2
  have h2 : ((p.advance 1).advance 1).remain = r := (advance_one h1).2.2
  have hsp : stateParse p = (some State.Done, p.advance 1) := by
    unfold stateParse
    rw [hx]
  refine ⟨(p.advance 1).advance 1, ?_, h2⟩
  unfold tryParse
  rw [(parseOpt_some_iff stateParse p (p.advance 1) State.Done).mpr hsp]
  dsimp only
  have heof : (p.advance 1).isEof = false := by
    rcases he : (p.advance 1).isEof
    · rfl
    · have := (isEof_iff (p.advance 1)).mp he
      rw [h1] at this
      exact absurd this (by simp)
  rw [heof]
  simp only [Bool.false_eq_true, if_false]
  rw [expectWhitespace_pos h1 (by decide)]

theorem tryParse_state_none {p : Parser} {b : Nat} {r : List Nat}
    (h : p.remain = b :: r) (hb : b ≠ 120) :
    tryParse stateParse p = (none, p) := by
  have hsp : stateParse p = (none, p) := by
    unfold stateParse
    rw [expectU8_neg h hb]
  unfold tryParse
  rw [parseOpt_of_none (by rw [hsp])]

theorem tryParse_priority_none {p : Parser} {b : Nat} {r : List Nat}
    (h : p.remain = b :: r) (hb : b ≠ 40) :
    tryParse priorityParse p = (none, p) := by
  have hsp : priorityParse p = (none, p) := by
    unfold priorityParse
    rw [expectU8_neg h hb]
  unfold tryParse
  rw [parseOpt_of_none (by rw [hsp])]

theorem tryParse_dc_none {p : Parser} {b : Nat} {r : List Nat}
    (h : p.remain = b :: r) (hb : ¬(48 ≤ b ∧ b ≤ 57)) :
    tryParse dateCompoundParse p = (none, p) := by
  have hdc : dateCompoundParse p = (none, p) := by
    unfold dateCompoundParse
    rw [parseOpt_of_none (dateParse_none_head h hb)]
  unfold tryParse
  rw [parseOpt_of_none (by rw [hdc])]

theorem tryParse_dc_display {c : DateCompound} (hok : dateCompoundOK c)
    {p : Parser} {b : Nat} {d' : List Nat}
    (h : p.remain = dateCompoundDisplay c ++ 32 :: b :: d')
    (hb : ¬(48 ≤ b ∧ b ≤ 57)) :
    ∃ q, tryParse dateCompoundParse p = (some c, q) ∧ q.remain = b :: d' := by
  obtain ⟨q0, hdc, hq0⟩ := dateCompoundParse_display hok h hb
  have h1 : (q0.advance 1).remain = b :: d' := (advance_one hq0).2.2
  refine ⟨q0.advance 1, ?_, h1⟩
  unfold tryParse
  rw [(parseOpt_some_iff dateCompoundParse p q0 c).mpr hdc]
  dsimp only
  have heof : q0.isEof = false := by
    rcases he : q0.isEof
    · rfl
    · have := (isEof_iff q0).mp he
      rw [hq0] at this
      exact absurd this (by simp)
  rw [heof]
  simp only [Bool.false_eq_true, if_false]
  rw [expectWhitespace_pos hq0 (by decide)]

theorem takeWhile_all {q : Nat → Bool} :
    ∀ {l : List Nat}, (∀ y ∈ l, q y = true) → l.takeWhile q = l := by
  intro l
  induction l with
  | nil => intro _; rfl
  | cons x xs ih =>
    intro hall
    rw [List.takeWhile_cons, if_pos (hall x (by simp))]
    rw [ih (fun y hy => hall y (by simp [hy]))]

theorem descriptionParse_all {p : Parser} {d : List Nat} (h : p.remain = d)
    (hne : d ≠ []) (hna : (10 : Nat) ∉ d) (hv : utf8Valid d = true) :
    (descriptionParse p).1 = some (Description.new d) := by
  have htw : d.takeWhile (fun b => decide (b ≠ 10)) = d := by
    refine takeWhile_all ?_
    intro y hy
    simp only [decide_eq_true_eq]
    intro hc
    exact hna (hc ▸ hy)
  obtain ⟨h1, h2⟩ := parseUntil_pos p 10 (by rw [h]; exact hne)
  unfold descriptionParse
  rcases hpu : Parser.parseUntil p 10 with ⟨o, p'⟩
  rw [hpu] at h1 h2
  dsimp only at h1 h2
  subst h1
  subst h2
  dsimp only
  rw [h, htw, if_pos hv]

theorem dateCompoundDisplay_head {c : DateCompound} (hok : dateCompoundOK c) :
    ∃ hb t, dateCompoundDisplay c = hb :: t ∧ 48 ≤ hb ∧ hb ≤ 57 := by
  cases c with
  | created c1 =>
    have hok1 : dateOK c1 := hok
    rw [dateCompoundDisplay, dateDisplay_explicit hok1]
    exact ⟨_, _, rfl, by omega, by
      have := hok1.2.1
      have := hok1.1
      omega⟩
  | completed cr cm =>
    obtain ⟨hokr, hokm⟩ : dateOK cr ∧ dateOK cm := hok
    rw [dateCompoundDisplay, dateDisplay_explicit hokm]
    simp only [List.cons_append]
    exact ⟨_, _, rfl, by omega, by
      have := hokm.2.1
      have := hokm.1
      omega⟩

theorem taskParse_assemble {p q1 q2 q3 : Parser} {ost : Option State}
    {opr : Option Priority} {odc : Option DateCompound} {D : Description}
    (hs : tryParse stateParse p = (ost, q1))
    (hp : tryParse priorityParse q1 = (opr, q2))
    (hc : tryParse dateCompoundParse q2 = (odc, q3))
    (hd : (descriptionParse q3).1 = some D) :
    (taskParse p).1 = some ⟨ost.getD State.default, opr, odc, D⟩ := by
  rw [taskParse_def]
  unfold afterOptTokens
  rw [hs]
  dsimp only
  rw [hp]
  dsimp only
  rw [hc]
  dsimp only
  have hpair : descriptionParse q3 = (some D, (descriptionParse q3).2) := by
    conv_lhs => rw [← @Prod.mk.eta _ _ (descriptionParse q3)]
    rw [hd]
  rw [hpair]

/-- C2 (amended): round-trip holds for every builder task whose priority is
absent, whose description is nonempty, newline-free, valid UTF-8 and does not
begin with `x`, `(` or an ASCII digit, and whose optional date compound holds
dates in `from_ymd_opt` range with four-digit non-negative years: parsing the
formatted text returns a structurally equal task. (The unrestricted claim is
false: a task with a priority set never round-trips, see the counterexample.) -/
theorem builder_roundtrip (st : Option State) (dc : Option DateCompound)
    (b : Nat) (d' : List Nat)
    (hnl : (10 : Nat) ∉ b :: d') (hv : utf8Valid (b :: d') = true)
    (hb1 : b ≠ 120) (hb2 : b ≠ 40) (hb3 : ¬(48 ≤ b ∧ b ≤ 57))
    (hdc : ∀ c, dc = some c → dateCompoundOK c) :
    taskFromStr (taskDisplay (buildTask st none dc (b :: d')))
      = some (buildTask st none dc (b :: d')) := by
  cases hst : st.getD State.default with
  | Open =>
    cases dc with
    | none =>
      have hdisp : taskDisplay (buildTask st none none (b :: d'))
          = b :: d' := by
        unfold taskDisplay buildTask descriptionDisplay
        dsimp only
        simp only [hst]
        simp [joinSpace, Description.raw_new]
      rw [hdisp]
      have hrem : (Parser.new (b :: d')).remain = b :: d' := remain_new _
      have hs := tryParse_state_none hrem hb1
      have hp := tryParse_priority_none hrem hb2
      have hcn := tryParse_dc_none hrem hb3
      have hdesc := descriptionParse_all hrem (by simp) hnl hv
      unfold taskFromStr
      rw [taskParse_assemble hs hp hcn hdesc]
      unfold buildTask
      rw [hst]
      rfl
    | some c =>
      have hok : dateCompoundOK c := hdc c rfl
      have hdisp : taskDisplay (buildTask st none (some c) (b :: d'))
          = dateCompoundDisplay c ++ 32 :: b :: d' := by
        unfold taskDisplay buildTask descriptionDisplay
        dsimp only
        simp only [hst]
        simp [joinSpace, Description.raw_new]
      rw [hdisp]
      obtain ⟨h0, t0, hd0, h48, h57⟩ := dateCompoundDisplay_head hok
      have hrem0 : (Parser.new (dateCompoundDisplay c ++ 32 :: b :: d')).remain
          = h0 :: (t0 ++ 32 :: b :: d') := by
        rw [remain_new, hd0]
        simp
      have hs := tryParse_state_none hrem0 (by omega)
      have hp := tryParse_priority_none hrem0 (by omega)
      obtain ⟨q3, hcs, hq3⟩ := tryParse_dc_display hok (remain_new _) hb3
      have hdesc := descriptionParse_all hq3 (by simp) hnl hv
      unfold taskFromStr
      rw [taskParse_assemble hs hp hcs hdesc]
      unfold buildTask
      rw [hst]
      rfl
  | Done =>
    cases dc with
    | none =>
      have hdisp : taskDisplay (buildTask st none none (b :: d'))
          = 120 :: 32 :: b :: d' := by
        unfold taskDisplay buildTask descriptionDisplay
        dsimp only
        simp only [hst]
        simp [joinSpace, stateDisplay, Description.raw_new]
      rw [hdisp]
      have hrem : (Parser.new (120 :: 32 :: b :: d')).remain
          = 120 :: 32 :: b :: d' := remain_new _
      obtain ⟨q1, hs, hq1⟩ := tryParse_state_done hrem
      have hp := tryParse_priority_none hq1 hb2
      have hcn := tryParse_dc_none hq1 hb3
      have hdesc := descriptionParse_all hq1 (by simp) hnl hv
      unfold taskFromStr
      rw [taskParse_assemble hs hp hcn hdesc]
      unfold buildTask
      rw [hst]
      rfl
    | some c =>
      have hok : dateCompoundOK c := hdc c rfl
      have hdisp : taskDisplay (buildTask st none (some c) (b :: d'))
          = 120 :: 32 :: (dateCompoundDisplay c ++ 32 :: b :: d') := by
        unfold taskDisplay buildTask descriptionDisplay
        dsimp only
        simp only [hst]
        simp [joinSpace, stateDisplay, Description.raw_new]
      rw [hdisp]
      have hrem : (Parser.new
          (120 :: 32 :: (dateCompoundDisplay c ++ 32 :: b :: d'))).remain
          = 120 :: 32 :: (dateCompoundDisplay c ++ 32 :: b :: d') :=
        remain_new _
      obtain ⟨q1, hs, hq1⟩ := tryParse_state_done hrem
      obtain ⟨h0, t0, hd0, h48, h57⟩ := dateCompoundDisplay_head hok
      have hq1' : q1.remain = h0 :: (t0 ++ 32 :: b :: d') := by
        rw [hq1, hd0]
        simp
      have hp := tryParse_priority_none hq1' (by omega)
      obtain ⟨q3, hcs, hq3⟩ := tryParse_dc_display hok hq1 hb3
      have hdesc := descriptionParse_all hq3 (by simp) hnl hv
      unfold taskFromStr
      rw [taskParse_assemble hs hp hcs hdesc]
      unfold buildTask
      rw [hst]
      rfl

theorem builder_roundtrip_witness :
    taskFromStr (taskDisplay (buildTask (some State.Done) none
        (some (DateCompound.completed ⟨2016, 4, 30⟩ ⟨2016, 5, 20⟩))
        (109 :: [101])))
      = some (buildTask (some State.Done) none
        (some (DateCompound.completed ⟨2016, 4, 30⟩ ⟨2016, 5, 20⟩))
        (109 :: [101])) :=
  builder_roundtrip (some State.Done)
    (some (DateCompound.completed ⟨2016, 4, 30⟩ ⟨2016, 5, 20⟩)) 109 [101]
    (by decide) (by decide) (by decide) (by decide) (by decide)
    (fun c hc => by
      injection hc with h
      exact h ▸ (by decide))

/-! ## Span and scanning lemmas for the indexer -/

theorem slice_append_drop {bs : List Nat} {f : ByteSpan} (h1 : f.low ≤ f.high)
    (h2 : f.high ≤ bs.length) :
    f.slice bs ++ bs.drop f.high = bs.drop f.low := by
  unfold ByteSpan.slice
  conv_rhs => rw [← List.take_append_drop f.high bs]
  rw [List.drop_append_of_le_length (by rw [List.length_take]; omega)]

theorem slice_append_drop2 {bs : List Nat} {a h : Nat} (h1 : a ≤ h)
    (h2 : h ≤ bs.length) :
    ByteSpan.slice ⟨a, h⟩ bs ++ bs.drop h = bs.drop a :=
  @slice_append_drop bs ⟨a, h⟩ h1 h2

theorem slice_glue {bs : List Nat} {a b c : Nat} (hab : a ≤ b) (hbc : b ≤ c)
    (hcn : c ≤ bs.length) :
    ByteSpan.slice ⟨a, b⟩ bs ++ ByteSpan.slice ⟨b, c⟩ bs
      = ByteSpan.slice ⟨a, c⟩ bs := by
  unfold ByteSpan.slice
  dsimp only
  have h1 : bs.take c = bs.take b ++ (bs.take c).drop b := by
    conv_lhs => rw [← List.take_append_drop b (bs.take c)]
    rw [List.take_take, min_eq_left hbc]
  conv_rhs => rw [h1]
  rw [List.drop_append_of_le_length (by rw [List.length_take]; omega)]

theorem first_get (c : Cursor) : c.first = c.bytes.get? c.index := by
  unfold Cursor.first Cursor.nth Cursor.get
  rw [Nat.add_zero]

theorem remain_cons_of_first {c : Cursor} {b : Nat} (h : c.first = some b) :
    ∃ t, c.remain = b :: t := by
  rw [first_eq] at h
  rcases hr : c.remain with _ | ⟨x, t⟩
  · rw [hr] at h
    exact absurd h (by simp)
  · rw [hr] at h
    simp only [List.head?_cons, Option.some.injEq] at h
    exact ⟨t, by rw [h]⟩

theorem remain_cons2 {c : Cursor} {a b : Nat} (h1 : c.first = some a)
    (h2 : c.second = some b) : ∃ t, c.remain = a :: b :: t := by
  obtain ⟨t, ht⟩ := remain_cons_of_first h1
  rcases t with _ | ⟨x, t'⟩
  · have hlen : c.bytes.length = c.index + 1 := by
      have := remain_length c
      rw [ht] at this
      simp only [List.length_cons, List.length_nil] at this
      have hle : c.index ≤ c.bytes.length := by
        by_contra hgt
        push_neg at hgt
        have : c.remain = [] := by
          unfold Cursor.remain
          rw [List.drop_eq_nil_iff]
          omega
        rw [ht] at this
        exact absurd this (by simp)
      omega
    unfold Cursor.second Cursor.nth Cursor.get at h2
    rw [List.get?_eq_none.mpr (by omega)] at h2
    exact absurd h2 (by simp)
  · refine ⟨t', ?_⟩
    unfold Cursor.second Cursor.nth Cursor.get at h2
    have : c.remain.get? 1 = some b := by
      unfold Cursor.remain
      rw [List.get?_drop]
      exact h2
    rw [ht] at this
    simp only [List.get?_cons_succ, List.get?_cons_zero, Option.some.injEq] at this
    rw [ht, this]

theorem consumeWhile_index_le (c : Cursor) (p : Nat → Bool) :
    c.index ≤ (c.consumeWhile p).index := by
  rw [consumeWhile_index]
  omega

theorem consumeWhile_index_le_len (c : Cursor) (p : Nat → Bool)
    (h : c.index ≤ c.bytes.length) :
    (c.consumeWhile p).index ≤ c.bytes.length := by
  rw [consumeWhile_index]
  have hle := (List.takeWhile_prefix p (l := c.remain)).length_le
  have := remain_length c
  omega

theorem consumeWhile_index_lt {c : Cursor} {b : Nat} {t : List Nat}
    {p : Nat → Bool} (h : c.remain = b :: t) (hp : p b = true) :
    c.index < (c.consumeWhile p).index := by
  rw [consumeWhile_index, h, List.takeWhile_cons, if_pos hp]
  simp

theorem consumeWhile_slice (c : Cursor) (p : Nat → Bool) :
    ((c.consumeWhile p).bytes.take (c.consumeWhile p).index).drop c.index
      = c.remain.takeWhile p := by
  rw [consumeWhile_bytes, consumeWhile_index, List.drop_take]
  have hsub : c.index + (c.remain.takeWhile p).length - c.index
      = (c.remain.takeWhile p).length := by omega
  rw [hsub, show c.bytes.drop c.index = c.remain from rfl]
  nth_rewrite 2 [← List.takeWhile_append_dropWhile p c.remain]
  rw [List.take_left]

theorem slice_single {c : Cursor} {b : Nat} (h : c.first = some b) :
    (c.bytes.take (c.index + 1)).drop c.index = [b] := by
  obtain ⟨t, ht⟩ := remain_cons_of_first h
  rw [List.drop_take]
  have hsub : c.index + 1 - c.index = 1 := by omega
  rw [hsub, show c.bytes.drop c.index = c.remain from rfl, ht]
  rfl

theorem index_le_len_of_first {c : Cursor} {b : Nat} (h : c.first = some b) :
    c.index < c.bytes.length := by
  obtain ⟨t, ht⟩ := remain_cons_of_first h
  exact index_lt_of_remain ht

theorem IndexInv_nil (bs : List Nat) (i : Nat) :
    IndexInv bs i ([], [], []) := by
  unfold IndexInv
  simp

theorem IndexInv_mono {bs : List Nat} {i j : Nat} {ls : RangeLists}
    (hji : j ≤ i) (h : IndexInv bs i ls) : IndexInv bs j ls := by
  obtain ⟨h1, h2, h3, h4, h5, h6, h7, h8, h9⟩ := h
  refine ⟨?_, ?_, ?_, h4, h5, h6, h7, h8, h9⟩
  · intro r hr
    obtain ⟨a, b, c⟩ := h1 r hr
    exact ⟨by omega, b, c⟩
  · intro r hr
    obtain ⟨a, b, c⟩ := h2 r hr
    exact ⟨by omega, b, c⟩
  · intro r hr
    obtain ⟨⟨a, b, c⟩, hsh, hco⟩ := h3 r hr
    exact ⟨⟨by omega, b, c⟩, hsh, hco⟩

theorem ByteSpan.new_eq {l h : Nat} (hle : l ≤ h) :
    ByteSpan.new l h = ⟨l, h⟩ := by
  unfold ByteSpan.new
  rw [if_neg (by omega)]

theorem IndexInv_consProject {bs : List Nat} {i l h : Nat}
    {ps : List ProjectRange} {cs : List ContextRange} {us : List CustomRange}
    (hinv : IndexInv bs h (ps, cs, us)) (hil : i ≤ l) (hlh : l < h)
    (hhn : h ≤ bs.length) :
    IndexInv bs i (ProjectRange.new (ByteSpan.new l h) :: ps, cs, us) := by
  obtain ⟨h1, h2, h3, h4, h5, h6, h7, h8, h9⟩ := hinv
  have hfull : (ProjectRange.new (ByteSpan.new l h)).full = ⟨l, h⟩ := by
    rw [ProjectRange.new, ByteSpan.new_eq (by omega)]
  refine ⟨?_, ?_, ?_, ?_, h5, h6, ?_, ?_, h9⟩
  · intro r hr
    rcases List.mem_cons.mp hr with hr | hr
    · rw [hr, hfull]
      exact ⟨hil, hlh, hhn⟩
    · obtain ⟨a, b, c⟩ := h1 r hr
      exact ⟨by omega, b, c⟩
  · intro r hr
    obtain ⟨a, b, c⟩ := h2 r hr
    exact ⟨by omega, b, c⟩
  · intro r hr
    obtain ⟨⟨a, b, c⟩, hsh, hco⟩ := h3 r hr
    exact ⟨⟨by omega, b, c⟩, hsh, hco⟩
  · rw [List.map_cons, List.pairwise_cons]
    refine ⟨?_, h4⟩
    intro f hf
    rw [List.mem_map] at hf
    obtain ⟨r, hr, hrf⟩ := hf
    obtain ⟨a, b, c⟩ := h1 r hr
    rw [hfull, ← hrf]
    dsimp only
    omega
  · intro p hp c' hc'
    rcases List.mem_cons.mp hp with hp | hp
    · obtain ⟨a, b, cc⟩ := h2 c' hc'
      rw [hp, hfull]
      exact Or.inl (by dsimp only; omega)
    · exact h7 p hp c' hc'
  · intro p hp u hu
    rcases List.mem_cons.mp hp with hp | hp
    · obtain ⟨⟨a, b, cc⟩, _, _⟩ := h3 u hu
      rw [hp, hfull]
      exact Or.inl (by dsimp only; omega)
    · exact h8 p hp u hu

theorem IndexInv_consContext {bs : List Nat} {i l h : Nat}
    {ps : List ProjectRange} {cs : List ContextRange} {us : List CustomRange}
    (hinv : IndexInv bs h (ps, cs, us)) (hil : i ≤ l) (hlh : l < h)
    (hhn : h ≤ bs.length) :
    IndexInv bs i (ps, ContextRange.new (ByteSpan.new l h) :: cs, us) := by
  obtain ⟨h1, h2, h3, h4, h5, h6, h7, h8, h9⟩ := hinv
  have hfull : (ContextRange.new (ByteSpan.new l h)).full = ⟨l, h⟩ := by
    rw [ContextRange.new, ByteSpan.new_eq (by omega)]
  refine ⟨?_, ?_, ?_, h4, ?_, h6, ?_, h8, ?_⟩
  · intro r hr
    obtain ⟨a, b, c⟩ := h1 r hr
    exact ⟨by omega, b, c⟩
  · intro r hr
    rcases List.mem_cons.mp hr with hr | hr
    · rw [hr, hfull]
      exact ⟨hil, hlh, hhn⟩
    · obtain ⟨a, b, c⟩ := h2 r hr
      exact ⟨by omega, b, c⟩
  · intro r hr
    obtain ⟨⟨a, b, c⟩, hsh, hco⟩ := h3 r hr
    exact ⟨⟨by omega, b, c⟩, hsh, hco⟩
  · rw [List.map_cons, List.pairwise_cons]
    refine ⟨?_, h5⟩
    intro f hf
    rw [List.mem_map] at hf
    obtain ⟨r, hr, hrf⟩ := hf
    obtain ⟨a, b, c⟩ := h2 r hr
    rw [hfull, ← hrf]
    dsimp only
    omega
  · intro p hp c' hc'
    rcases List.mem_cons.mp hc' with hc' | hc'
    · obtain ⟨a, b, cc⟩ := h1 p hp
      rw [hc', hfull]
      exact Or.inr (by dsimp only; omega)
    · exact h7 p hp c' hc'
  · intro c' hc' u hu
    rcases List.mem_cons.mp hc' with hc' | hc'
    · obtain ⟨⟨a, b, cc⟩, _, _⟩ := h3 u hu
      rw [hc', hfull]
      exact Or.inl (by dsimp only; omega)
    · exact h9 c' hc' u hu

theorem IndexInv_consCustom {bs : List Nat} {i : Nat} {u : CustomRange}
    {ps : List ProjectRange} {cs : List ContextRange} {us : List CustomRange}
    (hinv : IndexInv bs u.full.high (ps, cs, us)) (hil : i ≤ u.full.low)
    (hlh : u.full.low < u.full.high) (hhn : u.full.high ≤ bs.length)
    (hsh : CustomShapeOK u) (hco : CustomContentOK bs u) :
    IndexInv bs i (ps, cs, u :: us) := by
  obtain ⟨h1, h2, h3, h4, h5, h6, h7, h8, h9⟩ := hinv
  refine ⟨?_, ?_, ?_, h4, h5, ?_, h7, ?_, ?_⟩
  · intro r hr
    obtain ⟨a, b, c⟩ := h1 r hr
    exact ⟨by omega, b, c⟩
  · intro r hr
    obtain ⟨a, b, c⟩ := h2 r hr
    exact ⟨by omega, b, c⟩
  · intro r hr
    rcases List.mem_cons.mp hr with hr | hr
    · rw [hr]
      exact ⟨⟨hil, hlh, hhn⟩, hsh, hco⟩
    · obtain ⟨⟨a, b, c⟩, hsh', hco'⟩ := h3 r hr
      exact ⟨⟨by omega, b, c⟩, hsh', hco'⟩
  · rw [List.map_cons, List.pairwise_cons]
    refine ⟨?_, h6⟩
    intro f hf
    rw [List.mem_map] at hf
    obtain ⟨r, hr, hrf⟩ := hf
    obtain ⟨⟨a, b, c⟩, _, _⟩ := h3 r hr
    rw [← hrf]
    omega
  · intro p hp u' hu'
    rcases List.mem_cons.mp hu' with hu' | hu'
    · obtain ⟨a, b, cc⟩ := h1 p hp
      rw [hu']
      exact Or.inr (by omega)
    · exact h8 p hp u' hu'
  · intro c' hc' u' hu'
    rcases List.mem_cons.mp hu' with hu' | hu'
    · obtain ⟨a, b, cc⟩ := h2 c' hc'
      rw [hu']
      exact Or.inr (by omega)
    · exact h9 c' hc' u' hu'

theorem readCustom_spec (c1 : Cursor) (hn : c1.index ≤ c1.bytes.length) :
    (readCustom c1 c1.index).2.bytes = c1.bytes ∧
    c1.index ≤ (readCustom c1 c1.index).2.index ∧
    (readCustom c1 c1.index).2.index ≤ c1.bytes.length ∧
    (∀ r, (readCustom c1 c1.index).1 = some r →
      r.full = ⟨c1.index, (readCustom c1 c1.index).2.index⟩ ∧
      c1.index < (readCustom c1 c1.index).2.index ∧
      CustomShapeOK r ∧ CustomContentOK c1.bytes r) := by
  have hk1b : (c1.consumeWhile isKeyValueByte).bytes = c1.bytes :=
    consumeWhile_bytes c1 isKeyValueByte
  have hk1i : c1.index ≤ (c1.consumeWhile isKeyValueByte).index :=
    consumeWhile_index_le c1 isKeyValueByte
  have hk1n : (c1.consumeWhile isKeyValueByte).index ≤ c1.bytes.length :=
    consumeWhile_index_le_len c1 isKeyValueByte hn
  simp only [readCustom]
  split
  · rename_i heq
    obtain ⟨tk, htk⟩ := remain_cons_of_first heq
    have hklen : (c1.consumeWhile isKeyValueByte).index < c1.bytes.length := by
      have := index_le_len_of_first heq
      rwa [hk1b] at this
    have hAidx : ((c1.consumeWhile isKeyValueByte).advance 1).index
        = (c1.consumeWhile isKeyValueByte).index + 1 := (advance_one htk).2.1
    have hAbytes : ((c1.consumeWhile isKeyValueByte).advance 1).bytes
        = c1.bytes := hk1b
    split
    · rename_i h1
      have hklt : c1.index < (c1.consumeWhile isKeyValueByte).index := by
        have h' := h1.1
        rw [ByteSpan.new_eq hk1i] at h'
        unfold ByteSpan.len at h'
        dsimp only at h'
        omega
      rcases hf2 : ((c1.consumeWhile isKeyValueByte).advance 1).first with _ | b2
      · rw [hf2] at h1
        simp at h1
      · have hb2 : isKeyValueByte b2 = true := by
          have h' := h1.2
          rw [hf2] at h'
          simpa using h'
        obtain ⟨t2, ht2⟩ := remain_cons_of_first hf2
        have hVlt : ((c1.consumeWhile isKeyValueByte).advance 1).index
            < (((c1.consumeWhile isKeyValueByte).advance 1).consumeWhile
                isKeyValueByte).index :=
          consumeWhile_index_lt ht2 hb2
        have hVbytes : (((c1.consumeWhile isKeyValueByte).advance 1).consumeWhile
            isKeyValueByte).bytes = c1.bytes := by
          rw [consumeWhile_bytes, hAbytes]
        have hVn : (((c1.consumeWhile isKeyValueByte).advance 1).consumeWhile
            isKeyValueByte).index ≤ c1.bytes.length := by
          have := consumeWhile_index_le_len
            ((c1.consumeWhile isKeyValueByte).advance 1) isKeyValueByte
            (by rw [hAbytes]; omega)
          rwa [hAbytes] at this
        split
        · rename_i h2
          push_neg at h2
          have hb3 : ((((c1.consumeWhile isKeyValueByte).advance 1).consumeWhile
              isKeyValueByte).first.map (fun b => !isWs b)).getD false = false := by
            rcases hx : ((((c1.consumeWhile isKeyValueByte).advance 1).consumeWhile
                isKeyValueByte).first.map (fun b => !isWs b)).getD false
            · rfl
            · exact absurd hx h2.2
          dsimp only
          refine ⟨hVbytes, by omega, hVn, ?_⟩
          intro r hr
          injection hr with hr
          subst hr
          have hkey : ByteSpan.new c1.index (c1.consumeWhile isKeyValueByte).index
              = ⟨c1.index, (c1.consumeWhile isKeyValueByte).index⟩ :=
            ByteSpan.new_eq hk1i
          have hsep : (ByteSpan.new ((c1.consumeWhile isKeyValueByte).advance 1).index
                ((c1.consumeWhile isKeyValueByte).advance 1).index).offsetLow (-1)
              = ⟨(c1.consumeWhile isKeyValueByte).index,
                  (c1.consumeWhile isKeyValueByte).index + 1⟩ := by
            rw [ByteSpan.new_eq (le_refl _)]
            unfold ByteSpan.offsetLow
            dsimp only
            congr 1 <;> omega
          have hVsp : ByteSpan.new ((c1.consumeWhile isKeyValueByte).advance 1).index
                (((c1.consumeWhile isKeyValueByte).advance 1).consumeWhile
                  isKeyValueByte).index
              = ⟨(c1.consumeWhile isKeyValueByte).index + 1,
                  (((c1.consumeWhile isKeyValueByte).advance 1).consumeWhile
                    isKeyValueByte).index⟩ := by
            rw [ByteSpan.new_eq (le_of_lt hVlt), hAidx]
          have hfull : (⟨c1.index, (c1.consumeWhile isKeyValueByte).index⟩ :
                ByteSpan).union
                ⟨(c1.consumeWhile isKeyValueByte).index + 1,
                  (((c1.consumeWhile isKeyValueByte).advance 1).consumeWhile
                    isKeyValueByte).index⟩
              = ⟨c1.index, (((c1.consumeWhile isKeyValueByte).advance 1).consumeWhile
                  isKeyValueByte).index⟩ := by
            unfold ByteSpan.union
            dsimp only
            congr 1 <;> omega
          simp only [CustomRange.new, hkey, hsep, hVsp, hfull]
          have hkeysl : ByteSpan.slice
              ⟨c1.index, (c1.consumeWhile isKeyValueByte).index⟩ c1.bytes
              = c1.remain.takeWhile isKeyValueByte := by
            unfold ByteSpan.slice
            dsimp only
            have := consumeWhile_slice c1 isKeyValueByte
            rwa [hk1b] at this
          have hsepsl : ByteSpan.slice
              ⟨(c1.consumeWhile isKeyValueByte).index,
                (c1.consumeWhile isKeyValueByte).index + 1⟩ c1.bytes = [58] := by
            unfold ByteSpan.slice
            dsimp only
            have := slice_single heq
            rwa [hk1b] at this
          have hvalsl : ByteSpan.slice
              ⟨(c1.consumeWhile isKeyValueByte).index + 1,
                (((c1.consumeWhile isKeyValueByte).advance 1).consumeWhile
                  isKeyValueByte).index⟩ c1.bytes
              = ((c1.consumeWhile isKeyValueByte).advance 1).remain.takeWhile
                  isKeyValueByte := by
            unfold ByteSpan.slice
            dsimp only
            have := consumeWhile_slice ((c1.consumeWhile isKeyValueByte).advance 1)
              isKeyValueByte
            rw [hVbytes, hAidx] at this
            exact this
          refine ⟨by trivial, by omega, ?_, ?_⟩
          · unfold CustomShapeOK
            refine ⟨?_, ?_, ?_, ?_, ?_, ?_, ?_⟩ <;>
              first
              | trivial
              | (dsimp only; omega)
          · unfold CustomContentOK
            dsimp only
            refine ⟨?_, hsepsl, ?_, ?_⟩
            · intro b hb
              rw [hkeysl] at hb
              exact List.mem_takeWhile_imp hb
            · intro b hb
              rw [hvalsl] at hb
              exact List.mem_takeWhile_imp hb
            · rcases hf3 : ((((c1.consumeWhile isKeyValueByte).advance 1)).consumeWhile
                  isKeyValueByte).first with _ | b3
              · left
                have hfg := first_get (((c1.consumeWhile isKeyValueByte).advance 1).consumeWhile
                  isKeyValueByte)
                rw [hf3, hVbytes] at hfg
                have hge : c1.bytes.length ≤ (((c1.consumeWhile isKeyValueByte).advance
                    1).consumeWhile isKeyValueByte).index :=
                  List.get?_eq_none.mp hfg.symm
                omega
              · right
                have hws3 : isWs b3 = true := by
                  rw [hf3] at hb3
                  simpa using hb3
                refine ⟨b3, ?_, hws3⟩
                have := first_get (((c1.consumeWhile isKeyValueByte).advance 1).consumeWhile
                  isKeyValueByte)
                rw [hf3, hVbytes] at this
                exact this.symm
        · rename_i h2
          dsimp only
          refine ⟨hVbytes, by omega, hVn, ?_⟩
          intro r hr
          simp at hr
    · rename_i h1
      dsimp only
      refine ⟨hAbytes, by omega, by omega, ?_⟩
      intro r hr
      simp at hr
  · dsimp only
    refine ⟨hk1b, hk1i, hk1n, ?_⟩
    intro r hr
    simp at hr

theorem inv_step_skip {g : Nat}
    (ih : ∀ c2 : Cursor, c2.index ≤ c2.bytes.length →
      IndexInv c2.bytes c2.index (indexLoopAux g c2))
    {c X : Cursor} (hXb : X.bytes = c.bytes) (hXi : c.index ≤ X.index)
    (hXn : X.index ≤ c.bytes.length) :
    IndexInv c.bytes c.index (indexLoopAux g X) := by
  have hinv := ih X (by rw [hXb]; exact hXn)
  rw [hXb] at hinv
  exact IndexInv_mono hXi hinv

theorem indexLoopAux_inv :
    ∀ (fuel : Nat) (c : Cursor), c.index ≤ c.bytes.length →
      IndexInv c.bytes c.index (indexLoopAux fuel c) := by
  intro fuel
  induction fuel with
  | zero =>
    intro c _
    exact IndexInv_nil c.bytes c.index
  | succ g ih =>
    intro c hle
    simp only [indexLoopAux]
    by_cases heof : c.isEof = true
    · rw [if_pos heof]
      exact IndexInv_nil c.bytes c.index
    · rw [if_neg heof]
      have hc1b : (c.consumeWhitespaces).bytes = c.bytes := consumeWhile_bytes c isWs
      have hc1i : c.index ≤ (c.consumeWhitespaces).index := consumeWhile_index_le c isWs
      have hc1n : (c.consumeWhitespaces).index ≤ c.bytes.length :=
        consumeWhile_index_le_len c isWs hle
      have hXb0 : ((c.consumeWhitespaces).consumeNonWhitespaces).bytes = c.bytes := by
        rw [show ((c.consumeWhitespaces).consumeNonWhitespaces).bytes
            = (c.consumeWhitespaces).bytes from consumeWhile_bytes _ _, hc1b]
      have hXi0 : c.index ≤ ((c.consumeWhitespaces).consumeNonWhitespaces).index :=
        le_trans hc1i (consumeWhile_index_le _ _)
      have hXn0 : ((c.consumeWhitespaces).consumeNonWhitespaces).index
          ≤ c.bytes.length := by
        have := consumeWhile_index_le_len (c.consumeWhitespaces) (fun b => !isWs b)
          (by rw [hc1b]; exact hc1n)
        rwa [hc1b] at this
      rcases hfst : (c.consumeWhitespaces).first with _ | a
      · exact IndexInv_nil c.bytes c.index
      · dsimp only
        rcases hsnd : (c.consumeWhitespaces).second with _ | b
        · dsimp only
          rcases hrec : indexLoopAux g ((c.consumeWhitespaces).consumeNonWhitespaces)
            with ⟨ps, cs, us⟩
          dsimp only
          have := inv_step_skip ih hXb0 hXi0 hXn0
          rwa [hrec] at this
        · dsimp only
          by_cases hwsb : isWs b = true
          · rw [if_pos hwsb]
            rcases hrec : indexLoopAux g ((c.consumeWhitespaces).consumeNonWhitespaces)
              with ⟨ps, cs, us⟩
            dsimp only
            have := inv_step_skip ih hXb0 hXi0 hXn0
            rwa [hrec] at this
          · rw [if_neg hwsb]
            obtain ⟨ta, hta⟩ := remain_cons_of_first hfst
            by_cases ha43 : a = 43
            · rw [if_pos ha43]
              simp only [readProject]
              rcases hrec : indexLoopAux g
                ((c.consumeWhitespaces).consumeNonWhitespaces) with ⟨ps, cs, us⟩
              dsimp only
              have hlt : (c.consumeWhitespaces).index
                  < ((c.consumeWhitespaces).consumeNonWhitespaces).index :=
                consumeWhile_index_lt hta (by rw [ha43]; decide)
              have hinv := ih ((c.consumeWhitespaces).consumeNonWhitespaces)
                (by rw [hXb0]; exact hXn0)
              rw [hrec, hXb0] at hinv
              exact IndexInv_consProject hinv hc1i hlt hXn0
            · rw [if_neg ha43]
              by_cases ha64 : a = 64
              · rw [if_pos ha64]
                simp only [readContext]
                rcases hrec : indexLoopAux g
                  ((c.consumeWhitespaces).consumeNonWhitespaces) with ⟨ps, cs, us⟩
                dsimp only
                have hlt : (c.consumeWhitespaces).index
                    < ((c.consumeWhitespaces).consumeNonWhitespaces).index :=
                  consumeWhile_index_lt hta (by rw [ha64]; decide)
                have hinv := ih ((c.consumeWhitespaces).consumeNonWhitespaces)
                  (by rw [hXb0]; exact hXn0)
                rw [hrec, hXb0] at hinv
                exact IndexInv_consContext hinv hc1i hlt hXn0
              · rw [if_neg ha64]
                obtain ⟨hrb, hri, hrn, hsome⟩ := readCustom_spec (c.consumeWhitespaces)
                  (by rw [hc1b]; exact hc1n)
                rcases hrc : readCustom (c.consumeWhitespaces)
                  (c.consumeWhitespaces).index with ⟨o, c2⟩
                rw [hrc] at hrb hri hrn hsome
                dsimp only at hrb hri hrn hsome
                rcases o with _ | r
                · dsimp only
                  rcases hrec : indexLoopAux g (c2.consumeNonWhitespaces)
                    with ⟨ps, cs, us⟩
                  dsimp only
                  have hXb : (c2.consumeNonWhitespaces).bytes = c.bytes := by
                    rw [show (c2.consumeNonWhitespaces).bytes = c2.bytes from
                      consumeWhile_bytes _ _, hrb, hc1b]
                  have hXi : c.index ≤ (c2.consumeNonWhitespaces).index :=
                    le_trans hc1i (le_trans hri (consumeWhile_index_le _ _))
                  have hXn : (c2.consumeNonWhitespaces).index ≤ c.bytes.length := by
                    have h2 := consumeWhile_index_le_len c2 (fun b => !isWs b)
                      (by rw [hrb]; exact hrn)
                    rw [hrb, hc1b] at h2
                    exact h2
                  have := inv_step_skip ih hXb hXi hXn
                  rwa [hrec] at this
                · dsimp only
                  rcases hrec : indexLoopAux g c2 with ⟨ps, cs, us⟩
                  dsimp only
                  obtain ⟨hfull, hlt, hshape, hcontent⟩ := hsome r rfl
                  have hinv := ih c2 (by rw [hrb]; exact hrn)
                  rw [hrec, hrb, hc1b] at hinv
                  have hinv' : IndexInv c.bytes r.full.high (ps, cs, us) := by
                    rw [hfull]
                    exact hinv
                  refine IndexInv_consCustom hinv' ?_ ?_ ?_ hshape ?_
                  · rw [hfull]
                    exact hc1i
                  · rw [hfull]
                    exact hlt
                  · rw [hfull]
                    rw [hc1b] at hrn
                    exact hrn
                  · rw [hc1b] at hcontent
                    exact hcontent

theorem take_drop_glue {bs : List Nat} {a b c : Nat} (hab : a ≤ b)
    (hbc : b ≤ c) (hcn : c ≤ bs.length) :
    (bs.take b).drop a ++ (bs.take c).drop b = (bs.take c).drop a := by
  have h := @slice_glue bs a b c hab hbc hcn
  unfold ByteSpan.slice at h
  dsimp only at h
  exact h

theorem custom_bytes_eq {bs : List Nat} {u : CustomRange} (hsh : CustomShapeOK u)
    (hlh : u.full.low ≤ u.full.high) (hn : u.full.high ≤ bs.length) :
    u.key.slice bs ++ u.separator.slice bs ++ u.value.slice bs
      = u.full.slice bs := by
  obtain ⟨e1, e2, e3, e4, l1, l2, l3⟩ := hsh
  unfold ByteSpan.slice
  rw [← e1, ← e2, ← e3, ← e4]
  rw [@take_drop_glue bs u.full.low u.key.high u.separator.high (by omega)
    (by omega) (by omega)]
  rw [@take_drop_glue bs u.full.low u.separator.high u.full.high (by omega)
    (by omega) hn]

theorem IndexInv_popProject {bs : List Nat} {i : Nat} {pr : ProjectRange}
    {ps : List ProjectRange} {cs : List ContextRange} {us : List CustomRange}
    (hinv : IndexInv bs i (pr :: ps, cs, us)) (hpl : pr.full.low = i) :
    IndexInv bs pr.full.high (ps, cs, us) := by
  obtain ⟨h1, h2, h3, h4, h5, h6, h7, h8, h9⟩ := hinv
  rw [List.map_cons, List.pairwise_cons] at h4
  have hpr := h1 pr (List.mem_cons_self _ _)
  refine ⟨?_, ?_, ?_, h4.2, h5, h6, ?_, ?_, h9⟩
  · intro r hr
    obtain ⟨a, b, c⟩ := h1 r (List.mem_cons_of_mem _ hr)
    exact ⟨h4.1 r.full (List.mem_map_of_mem _ hr), b, c⟩
  · intro r hr
    obtain ⟨a, b, c⟩ := h2 r hr
    have hd := h7 pr (List.mem_cons_self _ _) r hr
    unfold SpanDisj at hd
    refine ⟨?_, b, c⟩
    obtain ⟨a', b', c'⟩ := hpr
    rcases hd with hd | hd <;> omega
  · intro r hr
    obtain ⟨⟨a, b, c⟩, hsh, hco⟩ := h3 r hr
    have hd := h8 pr (List.mem_cons_self _ _) r hr
    unfold SpanDisj at hd
    refine ⟨⟨?_, b, c⟩, hsh, hco⟩
    obtain ⟨a', b', c'⟩ := hpr
    rcases hd with hd | hd <;> omega
  · intro p hp c' hc'
    exact h7 p (List.mem_cons_of_mem _ hp) c' hc'
  · intro p hp u hu
    exact h8 p (List.mem_cons_of_mem _ hp) u hu

theorem IndexInv_popContext {bs : List Nat} {i : Nat} {cr : ContextRange}
    {ps : List ProjectRange} {cs : List ContextRange} {us : List CustomRange}
    (hinv : IndexInv bs i (ps, cr :: cs, us)) (hcl : cr.full.low = i) :
    IndexInv bs cr.full.high (ps, cs, us) := by
  obtain ⟨h1, h2, h3, h4, h5, h6, h7, h8, h9⟩ := hinv
  rw [List.map_cons, List.pairwise_cons] at h5
  have hcr := h2 cr (List.mem_cons_self _ _)
  refine ⟨?_, ?_, ?_, h4, h5.2, h6, ?_, h8, ?_⟩
  · intro r hr
    obtain ⟨a, b, c⟩ := h1 r hr
    have hd := h7 r hr cr (List.mem_cons_self _ _)
    unfold SpanDisj at hd
    refine ⟨?_, b, c⟩
    obtain ⟨a', b', c'⟩ := hcr
    rcases hd with hd | hd <;> omega
  · intro r hr
    obtain ⟨a, b, c⟩ := h2 r (List.mem_cons_of_mem _ hr)
    exact ⟨h5.1 r.full (List.mem_map_of_mem _ hr), b, c⟩
  · intro r hr
    obtain ⟨⟨a, b, c⟩, hsh, hco⟩ := h3 r hr
    have hd := h9 cr (List.mem_cons_self _ _) r hr
    unfold SpanDisj at hd
    refine ⟨⟨?_, b, c⟩, hsh, hco⟩
    obtain ⟨a', b', c'⟩ := hcr
    rcases hd with hd | hd <;> omega
  · intro p hp c' hc'
    exact h7 p hp c' (List.mem_cons_of_mem _ hc')
  · intro c' hc' u hu
    exact h9 c' (List.mem_cons_of_mem _ hc') u hu

theorem IndexInv_popCustom {bs : List Nat} {i : Nat} {ur : CustomRange}
    {ps : List ProjectRange} {cs : List ContextRange} {us : List CustomRange}
    (hinv : IndexInv bs i (ps, cs, ur :: us)) (hul : ur.full.low = i) :
    IndexInv bs ur.full.high (ps, cs, us) := by
  obtain ⟨h1, h2, h3, h4, h5, h6, h7, h8, h9⟩ := hinv
  rw [List.map_cons, List.pairwise_cons] at h6
  have hur := (h3 ur (List.mem_cons_self _ _)).1
  refine ⟨?_, ?_, ?_, h4, h5, h6.2, h7, ?_, ?_⟩
  · intro r hr
    obtain ⟨a, b, c⟩ := h1 r hr
    have hd := h8 r hr ur (List.mem_cons_self _ _)
    unfold SpanDisj at hd
    refine ⟨?_, b, c⟩
    obtain ⟨a', b', c'⟩ := hur
    rcases hd with hd | hd <;> omega
  · intro r hr
    obtain ⟨a, b, c⟩ := h2 r hr
    have hd := h9 r hr ur (List.mem_cons_self _ _)
    unfold SpanDisj at hd
    refine ⟨?_, b, c⟩
    obtain ⟨a', b', c'⟩ := hur
    rcases hd with hd | hd <;> omega
  · intro r hr
    obtain ⟨⟨a, b, c⟩, hsh, hco⟩ := h3 r (List.mem_cons_of_mem _ hr)
    exact ⟨⟨h6.1 r.full (List.mem_map_of_mem _ hr), b, c⟩, hsh, hco⟩
  · intro p hp u hu
    exact h8 p hp u (List.mem_cons_of_mem _ hu)
  · intro c' hc' u hu
    exact h9 c' hc' u (List.mem_cons_of_mem _ hu)

theorem join_cons_eq (a : List Nat) (l : List (List Nat)) :
    List.join (a :: l) = a ++ List.join l := rfl

theorem componentsNextCustom_ne_none (st : ComponentsState) (rangeEnd : Nat) :
    componentsNextCustom st rangeEnd ≠ none := by
  unfold componentsNextCustom
  rcases st.customRanges with _ | ⟨ur, urs⟩
  · simp
  · dsimp only
    by_cases h : ur.full.low = st.byteIdx
    · rw [if_pos h]
      simp
    · rw [if_neg h]
      simp

theorem componentsNextContext_ne_none (st : ComponentsState) (rangeEnd : Nat) :
    componentsNextContext st rangeEnd ≠ none := by
  unfold componentsNextContext
  rcases st.contextRanges with _ | ⟨cr, crs⟩
  · exact componentsNextCustom_ne_none st rangeEnd
  · dsimp only
    by_cases h : cr.full.low = st.byteIdx
    · rw [if_pos h]
      simp
    · rw [if_neg h]
      exact componentsNextCustom_ne_none st _

theorem components_custom_stage {g : Nat}
    (IH : ∀ (raw : List Nat) (ps : List ProjectRange) (cs : List ContextRange)
      (us : List CustomRange) (i : Nat), IndexInv raw i (ps, cs, us) →
      raw.length + 1 ≤ g + i →
      ((componentsListAux g ⟨raw, ps, cs, us, i⟩).map Component.bytes).join
        = raw.drop i)
    {raw : List Nat} {ps : List ProjectRange} {cs : List ContextRange}
    {us : List CustomRange} {i rangeEnd : Nat}
    (hinv : IndexInv raw i (ps, cs, us))
    (hire : i < rangeEnd) (hren : rangeEnd ≤ raw.length)
    (hfuel : raw.length + 1 ≤ g + 1 + i)
    (hps : ∀ r ∈ ps, rangeEnd ≤ r.full.low)
    (hcs : ∀ r ∈ cs, rangeEnd ≤ r.full.low) :
    ∀ comp st',
      componentsNextCustom ⟨raw, ps, cs, us, i⟩ rangeEnd = some (comp, st') →
      comp.bytes ++ ((componentsListAux g st').map Component.bytes).join
        = raw.drop i := by
  have hdup := hinv
  obtain ⟨h1, h2, h3, h4, h5, h6, h7, h8, h9⟩ := hdup
  intro comp st' hx
  cases us with
  | nil =>
    simp only [componentsNextCustom] at hx
    simp only [Option.some.injEq, Prod.mk.injEq] at hx
    obtain ⟨rfl, rfl⟩ := hx
    dsimp only [Component.bytes]
    have hinv' : IndexInv raw rangeEnd (ps, cs, ([] : List CustomRange)) := by
      refine ⟨?_, ?_, ?_, h4, h5, ?_, h7, ?_, ?_⟩
      · intro r hr
        exact ⟨hps r hr, (h1 r hr).2.1, (h1 r hr).2.2⟩
      · intro r hr
        exact ⟨hcs r hr, (h2 r hr).2.1, (h2 r hr).2.2⟩
      · intro r hr
        cases hr
      · simp
      · intro p hp u hu
        cases hu
      · intro c' hc' u hu
        cases hu
    have hIH := IH raw ps cs [] rangeEnd hinv' (by omega)
    rw [hIH]
    exact slice_append_drop2 (by omega) hren
  | cons ur urs =>
    obtain ⟨⟨hua, hub, huc⟩, hush, huco⟩ := h3 ur (List.mem_cons_self _ _)
    by_cases hul : ur.full.low = i
    · simp only [componentsNextCustom] at hx
      rw [if_pos hul] at hx
      simp only [Option.some.injEq, Prod.mk.injEq] at hx
      obtain ⟨rfl, rfl⟩ := hx
      dsimp only [Component.bytes]
      have hmax : max i ur.full.high = ur.full.high := max_eq_right (by omega)
      rw [hmax]
      have hpop := IndexInv_popCustom hinv hul
      have hIH := IH raw ps cs urs ur.full.high hpop (by omega)
      rw [hIH]
      rw [custom_bytes_eq hush (by omega) huc]
      have hsa := @slice_append_drop raw ur.full (by omega) huc
      rw [hsa, hul]
    · simp only [componentsNextCustom] at hx
      rw [if_neg hul] at hx
      simp only [Option.some.injEq, Prod.mk.injEq] at hx
      obtain ⟨rfl, rfl⟩ := hx
      dsimp only [Component.bytes]
      have hlow : i < ur.full.low := lt_of_le_of_ne hua (Ne.symm hul)
      have h6' := h6
      rw [List.map_cons, List.pairwise_cons] at h6'
      have hinv' : IndexInv raw (min rangeEnd ur.full.low) (ps, cs, ur :: urs) := by
        refine ⟨?_, ?_, ?_, h4, h5, h6, h7, h8, h9⟩
        · intro r hr
          have hm := min_le_left rangeEnd ur.full.low
          have := hps r hr
          exact ⟨by omega, (h1 r hr).2.1, (h1 r hr).2.2⟩
        · intro r hr
          have hm := min_le_left rangeEnd ur.full.low
          have := hcs r hr
          exact ⟨by omega, (h2 r hr).2.1, (h2 r hr).2.2⟩
        · intro r hr
          rcases List.mem_cons.mp hr with hr | hr
          · rw [hr]
            exact ⟨⟨min_le_right _ _, hub, huc⟩, hush, huco⟩
          · obtain ⟨⟨a, b, c⟩, hsh, hco⟩ := h3 r (List.mem_cons_of_mem _ hr)
            have := h6'.1 r.full (List.mem_map_of_mem _ hr)
            have hm := min_le_right rangeEnd ur.full.low
            exact ⟨⟨by omega, b, c⟩, hsh, hco⟩
      have hIH := IH raw ps cs (ur :: urs) (min rangeEnd ur.full.low) hinv'
        (by have := lt_min hire hlow; omega)
      rw [hIH]
      exact slice_append_drop2 (by have := lt_min hire hlow; omega)
        (by have := min_le_left rangeEnd ur.full.low; omega)

theorem components_context_stage {g : Nat}
    (IH : ∀ (raw : List Nat) (ps : List ProjectRange) (cs : List ContextRange)
      (us : List CustomRange) (i : Nat), IndexInv raw i (ps, cs, us) →
      raw.length + 1 ≤ g + i →
      ((componentsListAux g ⟨raw, ps, cs, us, i⟩).map Component.bytes).join
        = raw.drop i)
    {raw : List Nat} {ps : List ProjectRange} {cs : List ContextRange}
    {us : List CustomRange} {i rangeEnd : Nat}
    (hinv : IndexInv raw i (ps, cs, us))
    (hire : i < rangeEnd) (hren : rangeEnd ≤ raw.length)
    (hfuel : raw.length + 1 ≤ g + 1 + i)
    (hps : ∀ r ∈ ps, rangeEnd ≤ r.full.low) :
    ∀ comp st',
      componentsNextContext ⟨raw, ps, cs, us, i⟩ rangeEnd = some (comp, st') →
      comp.bytes ++ ((componentsListAux g st').map Component.bytes).join
        = raw.drop i := by
  have hdup := hinv
  obtain ⟨h1, h2, h3, h4, h5, h6, h7, h8, h9⟩ := hdup
  intro comp st' hx
  cases cs with
  | nil =>
    simp only [componentsNextContext] at hx
    exact components_custom_stage IH hinv hire hren hfuel hps
      (by intro r hr; cases hr) comp st' hx
  | cons cr crs =>
    obtain ⟨hca, hcb, hcc⟩ := h2 cr (List.mem_cons_self _ _)
    by_cases hcl : cr.full.low = i
    · simp only [componentsNextContext] at hx
      rw [if_pos hcl] at hx
      simp only [Option.some.injEq, Prod.mk.injEq] at hx
      obtain ⟨rfl, rfl⟩ := hx
      dsimp only [Component.bytes]
      have hmax : max i cr.full.high = cr.full.high := max_eq_right (by omega)
      rw [hmax]
      have hpop := IndexInv_popContext hinv hcl
      have hIH := IH raw ps crs us cr.full.high hpop (by omega)
      rw [hIH]
      have hsa := @slice_append_drop raw cr.full (by omega) hcc
      rw [hsa, hcl]
    · simp only [componentsNextContext] at hx
      rw [if_neg hcl] at hx
      have hlow : i < cr.full.low := lt_of_le_of_ne hca (Ne.symm hcl)
      have h5' := h5
      rw [List.map_cons, List.pairwise_cons] at h5'
      refine components_custom_stage IH hinv (lt_min hire hlow)
        (by have := min_le_left rangeEnd cr.full.low; omega) hfuel ?_ ?_
        comp st' hx
      · intro r hr
        have := hps r hr
        have hm := min_le_left rangeEnd cr.full.low
        omega
      · intro r hr
        rcases List.mem_cons.mp hr with hr | hr
        · rw [hr]
          exact min_le_right _ _
        · have := h5'.1 r.full (List.mem_map_of_mem _ hr)
          have hm := min_le_right rangeEnd cr.full.low
          omega

theorem componentsListAux_concat :
    ∀ (fuel : Nat) (raw : List Nat) (ps : List ProjectRange)
      (cs : List ContextRange) (us : List CustomRange) (i : Nat),
      IndexInv raw i (ps, cs, us) → raw.length + 1 ≤ fuel + i →
      ((componentsListAux fuel ⟨raw, ps, cs, us, i⟩).map Component.bytes).join
        = raw.drop i := by
  intro fuel
  induction fuel with
  | zero =>
    intro raw ps cs us i _ hfuel
    simp only [componentsListAux, List.map_nil, List.join_nil]
    rw [eq_comm, List.drop_eq_nil_iff]
    omega
  | succ g ih =>
    intro raw ps cs us i hinv hfuel
    have hdup := hinv
    obtain ⟨h1, h2, h3, h4, h5, h6, h7, h8, h9⟩ := hdup
    simp only [componentsListAux]
    by_cases hin : raw.length ≤ i
    · have hnone : componentsNext ⟨raw, ps, cs, us, i⟩ = none := by
        unfold componentsNext
        rw [if_pos hin]
      rw [hnone]
      simp only [List.map_nil, List.join_nil]
      rw [eq_comm, List.drop_eq_nil_iff]
      omega
    · push_neg at hin
      unfold componentsNext
      dsimp only
      rw [if_neg (by omega)]
      cases ps with
      | nil =>
        dsimp only
        rcases hx : componentsNextContext ⟨raw, [], cs, us, i⟩ raw.length
          with _ | ⟨comp, st'⟩
        · exact absurd hx (componentsNextContext_ne_none _ _)
        · dsimp only
          rw [List.map_cons, join_cons_eq]
          exact components_context_stage ih hinv hin (le_refl _) hfuel
            (by intro r hr; cases hr) comp st' hx
      | cons pr prs =>
        dsimp only
        obtain ⟨hpa, hpb, hpc⟩ := h1 pr (List.mem_cons_self _ _)
        by_cases hpl : pr.full.low = i
        · rw [if_pos hpl]
          dsimp only
          rw [List.map_cons, join_cons_eq]
          dsimp only [Component.bytes]
          have hmax : max i pr.full.high = pr.full.high := max_eq_right (by omega)
          rw [hmax]
          have hpop := IndexInv_popProject hinv hpl
          rw [ih raw prs cs us pr.full.high hpop (by omega)]
          have hsa := @slice_append_drop raw pr.full (by omega) hpc
          rw [hsa, hpl]
        · rw [if_neg hpl]
          have hlow : i < pr.full.low := lt_of_le_of_ne hpa (Ne.symm hpl)
          rcases hx : componentsNextContext ⟨raw, pr :: prs, cs, us, i⟩
            (min raw.length pr.full.low) with _ | ⟨comp, st'⟩
          · exact absurd hx (componentsNextContext_ne_none _ _)
          · dsimp only
            rw [List.map_cons, join_cons_eq]
            refine components_context_stage ih hinv (lt_min hin hlow)
              (min_le_left _ _) hfuel ?_ comp st' hx
            intro r hr
            have h4' := h4
            rw [List.map_cons, List.pairwise_cons] at h4'
            rcases List.mem_cons.mp hr with hr | hr
            · rw [hr]
              exact min_le_right _ _
            · have := h4'.1 r.full (List.mem_map_of_mem _ hr)
              have hm := min_le_right raw.length pr.full.low
              omega

/-- C5: for every byte string `s`, concatenating in order the substrings of
all components yielded by `Description::new(s).components()` reproduces `s`
exactly (no gaps, no overlaps), and the project, context and custom range
lists are mutually non-overlapping, so each whitespace-delimited word
contributes to at most one of the three lists. -/
theorem components_reconstruction (s : List Nat) :
    (((Description.new s).components).map Component.bytes).join = s ∧
    (∀ p ∈ (Description.new s).projects, ∀ c ∈ (Description.new s).contexts,
      p.full.high ≤ c.full.low ∨ c.full.high ≤ p.full.low) ∧
    (∀ p ∈ (Description.new s).projects, ∀ u ∈ (Description.new s).custom,
      p.full.high ≤ u.full.low ∨ u.full.high ≤ p.full.low) ∧
    (∀ c ∈ (Description.new s).contexts, ∀ u ∈ (Description.new s).custom,
      c.full.high ≤ u.full.low ∨ u.full.high ≤ c.full.low) := by
  have hinv0 : IndexInv s 0 (descriptionIndex s) := by
    unfold descriptionIndex
    exact indexLoopAux_inv (s.length + 1) (Cursor.new s) (Nat.zero_le _)
  rcases hd : descriptionIndex s with ⟨ps, cs, us⟩
  rw [hd] at hinv0
  have hdesc : Description.new s = ⟨s, ps, cs, us⟩ := by
    unfold Description.new
    rw [hd]
  rw [hdesc]
  obtain ⟨h1, h2, h3, h4, h5, h6, h7, h8, h9⟩ := hinv0
  refine ⟨?_, h7, h8, h9⟩
  unfold Description.components
  dsimp only
  rw [componentsListAux_concat (s.length + ps.length + cs.length + us.length + 1)
    s ps cs us 0 ⟨h1, h2, h3, h4, h5, h6, h7, h8, h9⟩ (by omega)]
  exact List.drop_zero s

theorem components_reconstruction_witness :
    (((Description.new (ascii "+p @c k:v")).components).map Component.bytes).join
        = ascii "+p @c k:v" ∧
    ((⟨⟨0, 2⟩, ⟨1, 2⟩⟩ : ProjectRange).full.high
        ≤ (⟨⟨3, 5⟩, ⟨4, 5⟩⟩ : ContextRange).full.low ∨
      (⟨⟨3, 5⟩, ⟨4, 5⟩⟩ : ContextRange).full.high
        ≤ (⟨⟨0, 2⟩, ⟨1, 2⟩⟩ : ProjectRange).full.low) :=
  ⟨(components_reconstruction (ascii "+p @c k:v")).1,
    (components_reconstruction (ascii "+p @c k:v")).2.1
      ⟨⟨0, 2⟩, ⟨1, 2⟩⟩ (by decide) ⟨⟨3, 5⟩, ⟨4, 5⟩⟩ (by decide)⟩

/-- C6 (amended): a whitespace-delimited word containing two colons is never
recorded as a custom tag: every recorded custom range has a single-colon
separator, a colon-free key and a colon-free value, its full substring is
`key ++ ":" ++ value` and contains exactly one colon, and it extends to a
whitespace byte or to the end of the text — so a word whose post-colon run
is terminated by a second colon cannot be (or contain) a custom tag.  The
original claim's "treated as plain text" is false in general: a two-colon
word starting with `+` or `@` becomes a project or context (see the
counterexample). -/
theorem custom_single_colon (s : List Nat) :
    ∀ u ∈ (Description.new s).custom,
      u.separator.slice s = [58] ∧
      ((58 : Nat) ∉ u.key.slice s) ∧ ((58 : Nat) ∉ u.value.slice s) ∧
      u.full.slice s = u.key.slice s ++ [58] ++ u.value.slice s ∧
      (u.full.slice s).count 58 = 1 ∧
      (u.full.high = s.length ∨ ∃ b, s.get? u.full.high = some b ∧ isWs b = true) := by
  have hinv0 : IndexInv s 0 (descriptionIndex s) := by
    unfold descriptionIndex
    exact indexLoopAux_inv (s.length + 1) (Cursor.new s) (Nat.zero_le _)
  rcases hd : descriptionIndex s with ⟨ps, cs, us⟩
  rw [hd] at hinv0
  have hdesc : Description.new s = ⟨s, ps, cs, us⟩ := by
    unfold Description.new
    rw [hd]
  rw [hdesc]
  intro u hu
  obtain ⟨⟨⟨ha, hb, hc⟩, hsh⟩, hkb, hsepsl, hvb, hbound⟩ :
      (SpanOK 0 s.length u.full ∧ CustomShapeOK u) ∧
        (∀ b ∈ u.key.slice s, isKeyValueByte b = true) ∧
        u.separator.slice s = [58] ∧
        (∀ b ∈ u.value.slice s, isKeyValueByte b = true) ∧
        (u.full.high = s.length ∨ ∃ b, s.get? u.full.high = some b ∧ isWs b = true) := by
    obtain ⟨hs, hsh, hco⟩ := hinv0.2.2.1 u hu
    exact ⟨⟨hs, hsh⟩, hco.1, hco.2.1, hco.2.2.1, hco.2.2.2⟩
  have hknot : (58 : Nat) ∉ u.key.slice s := by
    intro hmem
    have := hkb 58 hmem
    simp [isKeyValueByte, isWs] at this
  have hvnot : (58 : Nat) ∉ u.value.slice s := by
    intro hmem
    have := hvb 58 hmem
    simp [isKeyValueByte, isWs] at this
  have hglue : u.full.slice s = u.key.slice s ++ [58] ++ u.value.slice s := by
    rw [← hsepsl]
    exact (custom_bytes_eq hsh (le_of_lt hb) hc).symm
  refine ⟨hsepsl, hknot, hvnot, hglue, ?_, hbound⟩
  rw [hglue]
  rw [List.count_append, List.count_append]
  rw [List.count_eq_zero.mpr hknot, List.count_eq_zero.mpr hvnot]
  rfl

theorem custom_single_colon_witness :
    (⟨⟨2, 5⟩, ⟨2, 3⟩, ⟨3, 4⟩, ⟨4, 5⟩⟩ : CustomRange).separator.slice
        (ascii "a k:v") = [58] ∧
    ((58 : Nat) ∉ (⟨⟨2, 5⟩, ⟨2, 3⟩, ⟨3, 4⟩, ⟨4, 5⟩⟩ : CustomRange).key.slice
        (ascii "a k:v")) ∧
    ((58 : Nat) ∉ (⟨⟨2, 5⟩, ⟨2, 3⟩, ⟨3, 4⟩, ⟨4, 5⟩⟩ : CustomRange).value.slice
        (ascii "a k:v")) ∧
    (⟨⟨2, 5⟩, ⟨2, 3⟩, ⟨3, 4⟩, ⟨4, 5⟩⟩ : CustomRange).full.slice (ascii "a k:v")
        = (⟨⟨2, 5⟩, ⟨2, 3⟩, ⟨3, 4⟩, ⟨4, 5⟩⟩ : CustomRange).key.slice (ascii "a k:v")
          ++ [58] ++
          (⟨⟨2, 5⟩, ⟨2, 3⟩, ⟨3, 4⟩, ⟨4, 5⟩⟩ : CustomRange).value.slice (ascii "a k:v") ∧
    ((⟨⟨2, 5⟩, ⟨2, 3⟩, ⟨3, 4⟩, ⟨4, 5⟩⟩ : CustomRange).full.slice
        (ascii "a k:v")).count 58 = 1 ∧
    ((⟨⟨2, 5⟩, ⟨2, 3⟩, ⟨3, 4⟩, ⟨4, 5⟩⟩ : CustomRange).full.high
        = (ascii "a k:v").length ∨
      ∃ b, (ascii "a k:v").get? (⟨⟨2, 5⟩, ⟨2, 3⟩, ⟨3, 4⟩, ⟨4, 5⟩⟩ :
        CustomRange).full.high = some b ∧ isWs b = true) :=
  custom_single_colon (ascii "a k:v") ⟨⟨2, 5⟩, ⟨2, 3⟩, ⟨3, 4⟩, ⟨4, 5⟩⟩ (by decide)

end Tdtxt
